import Mathlib

/-!
Verification development for the `obsidian-vault-curator` repository,
covering the filing / undo / learning subsystem: the filer module
(`fileNotes`, `fileNote`, `queueForReview`, `resolveCollision`,
`parseConfidence`), the operation ledger (`undo.js`), the learner
(`learning.js`) and the store contract (`vault-client.js`).

The JavaScript source is shallowly embedded: JS numbers are modelled as
rationals (`ℚ`), JS strings as Lean strings manipulated through their
character lists, fallible code returns `Except`/`Option`, and the mutable
CouchDB-backed store plus the two persisted JSON files (filing history,
learning data) are threaded explicitly as a state value.
-/

namespace VaultCurator

/-! ## JS string primitives

Character-level helpers modelling the JavaScript string operations the
source relies on.  Only the ASCII fragment of the Unicode-aware JS
behaviour is modelled (the repository sanitizes all persisted text down
to ASCII, see `sanitizeUnicode`). -/

/-- The characters matched by the regex class `\s` (ASCII fragment). -/
def isWsChar (c : Char) : Bool :=
  c = ' ' ∨ c = '\t' ∨ c = '\n' ∨ c = '\r' ∨ c = '\x0b' ∨ c = '\x0c'

/-- `String.prototype.trim` (ASCII whitespace fragment). -/
def jsTrim (s : String) : String :=
  ⟨(s.data.dropWhile isWsChar).reverse.dropWhile isWsChar |>.reverse⟩

/-- ASCII lower-casing of one character, as done by `toLowerCase`. -/
def jsLowerChar (c : Char) : Char :=
  if 'A' ≤ c ∧ c ≤ 'Z' then Char.ofNat (c.toNat + 32) else c

/-- `String.prototype.toLowerCase` (ASCII fragment). -/
def toLowerStr (s : String) : String :=
  ⟨s.data.map jsLowerChar⟩

/-- Decimal digit test, regex `\d`. -/
def isDigitChar (c : Char) : Bool :=
  '0' ≤ c ∧ c ≤ '9'

/-- Value of a list of decimal digits. -/
def digitsVal (ds : List Char) : Nat :=
  ds.foldl (fun acc c => 10 * acc + (c.toNat - '0'.toNat)) 0

/-! ## String-keyed assoc lists

JS objects used as string-keyed maps (front-matter, the CouchDB doc
table, the session map, frequency tables) are embedded as assoc lists
in property-insertion order. -/

/-- Property read `obj[k]` (`none` = `undefined`). -/
def assocGet {β : Type} (l : List (String × β)) (k : String) : Option β :=
  (l.find? (fun p => p.1 = k)).map Prod.snd

/-- Property write `obj[k] = v`: replaces in place when the key exists
(keeping its position), otherwise appends. -/
def assocUpd {β : Type} (l : List (String × β)) (k : String) (v : β) : List (String × β) :=
  if l.any (fun p => p.1 = k) then
    l.map (fun p => if p.1 = k then (k, v) else p)
  else l ++ [(k, v)]

/-- In-place modification of an existing key's value. -/
def assocAdjust {β : Type} (l : List (String × β)) (k : String) (f : β → β) :
    List (String × β) :=
  l.map (fun p => if p.1 = k then (k, f p.2) else p)

/-! ## JS `parseFloat`

`parseFloat` skips leading whitespace, then parses an optional sign, an
integer part, an optional fractional part and an optional exponent,
taking the longest numeric prefix; it returns `NaN` (modelled `none`)
when no mantissa digit is present.  `Infinity` literals are not
modelled (the repository never feeds them in). -/

/-- Parse an exponent suffix `e`/`E` `[+-]?` digits; returns the exponent
and is ignored (JS backtracks) when no digit follows the marker. -/
def parseExponent (cs : List Char) : Int :=
  match cs with
  | 'e' :: rest | 'E' :: rest =>
    match rest with
    | '+' :: ds => if (ds.takeWhile isDigitChar) = [] then 0 else (digitsVal (ds.takeWhile isDigitChar) : Int)
    | '-' :: ds => if (ds.takeWhile isDigitChar) = [] then 0 else -(digitsVal (ds.takeWhile isDigitChar) : Int)
    | ds => if (ds.takeWhile isDigitChar) = [] then 0 else (digitsVal (ds.takeWhile isDigitChar) : Int)
  | _ => 0

/-- JS `parseFloat` on the decimal-literal fragment.  The value
`± (int.frac) · 10^e` is assembled as a single exact fraction
(`mkRat` normalizes), which equals the float the source computes
whenever that float is exact. -/
def parseFloatQ (s : String) : Option ℚ :=
  let cs := s.data.dropWhile isWsChar
  let (neg, cs) : Bool × List Char :=
    match cs with
    | '-' :: rest => (true, rest)
    | '+' :: rest => (false, rest)
    | _ => (false, cs)
  let intDigits := cs.takeWhile isDigitChar
  let cs₁ := cs.dropWhile isDigitChar
  let (fracDigits, cs₂) : List Char × List Char :=
    match cs₁ with
    | '.' :: rest => (rest.takeWhile isDigitChar, rest.dropWhile isDigitChar)
    | _ => ([], cs₁)
  if intDigits = [] ∧ fracDigits = [] then none
  else
    let mantNum : Nat := digitsVal intDigits * 10 ^ fracDigits.length + digitsVal fracDigits
    let mantDen : Nat := 10 ^ fracDigits.length
    let e : Int := parseExponent cs₂
    let num : Nat := if 0 ≤ e then mantNum * 10 ^ e.toNat else mantNum
    let den : Nat := if 0 ≤ e then mantDen else mantDen * 10 ^ (-e).toNat
    some (mkRat (if neg then -(num : Int) else (num : Int)) den)

/-! ## Front-matter values

The YAML front-matter parser in `vault-client.js` produces strings,
booleans, numbers, string arrays and (one or more levels of) nested
mappings; `FmVal` is that value universe.  `none : Option FmVal` models
a JS `undefined` (an absent property). -/

inductive FmVal where
  | s (v : String)
  | b (v : Bool)
  | n (v : ℚ)
  | arr (v : List String)
  | obj (v : List (String × FmVal))

/-- JS truthiness of a front-matter value (objects and arrays are always
truthy; `""`, `false` and `0` are falsy). -/
def FmVal.truthy : FmVal → Bool
  | .s v => v ≠ ""
  | .b v => v
  | .n v => v ≠ 0
  | .arr _ => true
  | .obj _ => true

/-- Truthiness of a possibly-`undefined` value. -/
def jsTruthy : Option FmVal → Bool
  | none => false
  | some v => v.truthy

/-- JS property read `v[name]` on a defined value: object lookup, and
`undefined` on every non-object (strings/numbers have none of the
properties the filer reads). -/
def FmVal.getProp : FmVal → String → Option FmVal
  | .obj l, name => assocGet l name
  | _, _ => none

/-- JS object-key assignment on front-matter. -/
def setKey (l : List (String × FmVal)) (k : String) (v : FmVal) : List (String × FmVal) :=
  assocUpd l k v

/-- JS `delete obj[k]` on front-matter. -/
def delKey (l : List (String × FmVal)) (k : String) : List (String × FmVal) :=
  l.filter (fun p => p.1 ≠ k)

/-- Front-matter key read (`obj[k]`, `undefined` when absent). -/
def fmGet (l : List (String × FmVal)) (k : String) : Option FmVal :=
  assocGet l k

/-! ## `parseConfidence` (filer module)

```js
function parseConfidence(confidence) {
  if (typeof confidence === 'number') return confidence;
  const level = (confidence || '').toLowerCase();
  if (level === 'high') return 0.9;
  if (level === 'medium') return 0.6;
  if (level === 'low') return 0.3;
  const parsed = parseFloat(confidence);
  return isNaN(parsed) ? 0.5 : parsed;
}
```

For a falsy non-number (`undefined`, `false`, `""`) the `||` guard makes
`level` the empty string and `parseFloat` yields `NaN`, hence `0.5`.
For a *truthy* non-string non-number (`true`, an array, an object) the
call `confidence.toLowerCase()` throws a `TypeError`; that throw is
modelled as `none`. -/

def parseConfidence : Option FmVal → Option ℚ
  | some (.n q) => some q
  | some (.s str) =>
    let level := toLowerStr str
    if level = "high" then some (mkRat 9 10)
    else if level = "medium" then some (mkRat 6 10)
    else if level = "low" then some (mkRat 3 10)
    else some ((parseFloatQ str).getD (mkRat 5 10))
  | some (.b false) => some (mkRat 5 10)
  | none => some (mkRat 5 10)
  | some (.b true) => none
  | some (.arr _) => none
  | some (.obj _) => none

/-! ## More string helpers -/

/-- `String.prototype.startsWith`. -/
def strStartsWith (s pre : String) : Bool :=
  pre.data.isPrefixOf s.data

/-- Split a character list at every occurrence of `c` (JS
`String.prototype.split` with a single-character separator; keeps empty
pieces). -/
def splitOnChar (c : Char) : List Char → List (List Char)
  | [] => [[]]
  | ch :: rest =>
    match splitOnChar c rest with
    | g :: gs => if ch = c then [] :: g :: gs else (ch :: g) :: gs
    | [] => [[]]

/-- JS `content.split('\n')`. -/
def splitLines (s : String) : List String :=
  (splitOnChar '\n' s.data).map (fun g => ⟨g⟩)

/-- Join lines back with `'\n'` (JS `Array.prototype.join('\n')`). -/
def joinLines : List String → String
  | [] => ""
  | [x] => x
  | x :: rest => x ++ "\n" ++ joinLines rest

/-- Decimal digits of a natural number (own recursion so that concrete
values reduce in the kernel). -/
def natDigitsAux : Nat → Nat → List Char
  | 0, _ => []
  | fuel + 1, n =>
    if n < 10 then [Char.ofNat ('0'.toNat + n)]
    else natDigitsAux fuel (n / 10) ++ [Char.ofNat ('0'.toNat + n % 10)]

/-- JS `String(n)` for a natural number. -/
def natToStr (n : Nat) : String :=
  ⟨natDigitsAux (n + 1) n⟩

/-- JS `String(i)` for an integer. -/
def intToStr (i : Int) : String :=
  if i < 0 then "-" ++ natToStr i.natAbs else natToStr i.natAbs

/-! ## `sanitizeUnicode` (vault-client.js)

Replaces a fixed set of emojis with ASCII tags (`⚠️` is the two-character
sequence U+26A0 U+FE0F), strips the emoji block U+1F300–U+1F9FF, then
strips every remaining non-ASCII character. -/

/-- The single-character emoji replacements of `sanitizeUnicode`. -/
def emojiText (c : Char) : Option String :=
  if c = '✅' then some "[DONE]"
  else if c = '❌' then some "[FAIL]"
  else if c = '→' then some "->"
  else if c = '✓' then some "[OK]"
  else if c = '✗' then some "[X]"
  else if c = '📝' then some "[NOTE]"
  else if c = '🔍' then some "[SEARCH]"
  else if c = '💡' then some "[IDEA]"
  else if c = '🎯' then some "[TARGET]"
  else if c = '🔥' then some "[HOT]"
  else if c = '⭐' then some "[STAR]"
  else none

/-- Apply the emoji-to-text replacements (first stage of
`sanitizeUnicode`). -/
def applyEmojiReplacements : List Char → List Char
  | [] => []
  | '⚠' :: '️' :: rest => "[WARN]".data ++ applyEmojiReplacements rest
  | c :: rest =>
    match emojiText c with
    | some t => t.data ++ applyEmojiReplacements rest
    | none => c :: applyEmojiReplacements rest

/-- `sanitizeUnicode` from vault-client.js. -/
def sanitizeUnicode (s : String) : String :=
  ⟨((applyEmojiReplacements s.data).filter
      (fun c => ¬(0x1F300 ≤ c.toNat ∧ c.toNat ≤ 0x1F9FF))).filter
    (fun c => c.toNat ≤ 0x7F)⟩

/-! ## The document store (vault-client.js)

CouchDB documents keyed by the LiveSync id (the lower-cased path, with a
`/` prepended when the path starts with `_`).  `deleteNote` is a soft
delete: the document stays, with its content cleared and a `deleted`
flag set; chunk documents (`h:` ids) are not modelled separately — a
document carries its full content.  `readNote`'s encrypted-note check is
not modelled (no embedded write produces the `e_` marker). -/

structure Doc where
  path : String
  content : String
  deleted : Bool
deriving DecidableEq, Repr

structure Store where
  docs : List (String × Doc)
deriving DecidableEq, Repr

/-- Store / vault-client error: `notFound` models a CouchDB 404
(`err.statusCode === 404`, whose message the undo path recognises via
`includes('404')`); `emsg` models any other thrown `Error`. -/
inductive VErr where
  | notFound
  | emsg (m : String)
deriving DecidableEq, Repr

/-- `_pathToId`: LiveSync lower-cases paths and prepends `/` when the
path starts with `_`. -/
def pathToId (p : String) : String :=
  let id := toLowerStr p
  if strStartsWith id "_" then "/" ++ id else id

/-- Document lookup by path. -/
def Store.find? (s : Store) (p : String) : Option Doc :=
  assocGet s.docs (pathToId p)

/-- `readNote(path)`: `none` models the 404 → `null` result.  A
soft-deleted document is still returned (the source reconstructs content
from its — now empty — chunk list), with empty content. -/
def Store.readNote (s : Store) (p : String) : Option (String × String) :=
  (s.find? p).map (fun d => (d.path, d.content))

/-- `writeNote(path, content)`: sanitizes the content and creates or
replaces the metadata document (a replaced document loses any `deleted`
flag, since the metadata is rebuilt from scratch). -/
def Store.writeNote (s : Store) (p c : String) : Store :=
  ⟨assocUpd s.docs (pathToId p) ⟨p, sanitizeUnicode c, false⟩⟩

/-- `deleteNote(path)`: LiveSync soft delete — throws 404 when the
document does not exist, otherwise keeps the document with `deleted:
true` and cleared content. -/
def Store.deleteNote (s : Store) (p : String) : Except VErr Store :=
  match s.find? p with
  | none => .error .notFound
  | some d => .ok ⟨assocUpd s.docs (pathToId p) ⟨d.path, "", true⟩⟩

/-- `listNotes()`: every non-chunk, non-system document's path, in store
order (deleted documents included, as in the source). -/
def Store.listNotes (s : Store) : List String :=
  (s.docs.filter (fun q =>
    ¬ strStartsWith q.1 "h:" ∧ ¬ strStartsWith q.1 "_" ∧
      q.1 ≠ "obsydian_livesync_version")).map (fun q => q.2.path)

/-! ## Node `path` helpers

Only the fragment the filer exercises is modelled: no `.`/`..`
normalization, and directories are plain prefixes. -/

/-- Node `path.basename`: drop trailing slashes, then take the segment
after the last `/`. -/
def pathBasename (p : String) : String :=
  let rev := p.data.reverse.dropWhile (fun c => c = '/')
  ⟨(rev.takeWhile (fun c => c ≠ '/')).reverse⟩

/-- Node `path.join(a, b)` for the shapes the filer produces (either
side may be empty; a trailing slash on `a` is dropped). -/
def pathJoin (a b : String) : String :=
  if a = "" then b
  else if b = "" then a
  else ⟨a.data.reverse.dropWhile (fun c => c = '/') |>.reverse⟩ ++ "/" ++ b

/-- The `dir`, `name` and `ext` of Node `path.parse` that
`resolveCollision` uses. -/
structure PathParts where
  dir : String
  name : String
  ext : String
deriving DecidableEq, Repr

/-- Node `path.parse`, restricted to `dir`/`name`/`ext`.  The extension
starts at the last `.` of the basename unless that dot is its first
character. -/
def pathParse (p : String) : PathParts :=
  let cs := p.data
  let base := (cs.reverse.takeWhile (fun c => c ≠ '/')).reverse
  let dir := ⟨(cs.take (cs.length - base.length)).reverse.dropWhile (fun c => c = '/') |>.reverse⟩
  let revBase := base.reverse
  let extRev := revBase.takeWhile (fun c => c ≠ '.')
  if extRev.length + 1 < base.length then
    ⟨dir, ⟨base.take (base.length - extRev.length - 1)⟩, ⟨'.' :: extRev.reverse⟩⟩
  else
    ⟨dir, ⟨base⟩, ""⟩

/-! ## YAML front-matter parser (vault-client.js)

`parseFrontmatter` and its helpers `_parseYamlBlock`, `_parseYamlValue`,
`_getIndentLevel`, and the serializer `buildNote` / `_addYamlField`.

One source bug is modelled faithfully: in `_parseYamlValue` the
single-quoted-string branch reads `item.endsWith("'")` where `item` is
not in scope, so a value that starts with `'` (and is not wrapped in
double quotes) raises a `ReferenceError`; that throw is the `.error`
result threaded through the parser. -/

/-- Regex `\w` plus the `-` the key pattern allows: `[\w_-]`. -/
def isKeyChar (c : Char) : Bool :=
  ('a' ≤ c ∧ c ≤ 'z') ∨ ('A' ≤ c ∧ c ≤ 'Z') ∨ ('0' ≤ c ∧ c ≤ '9') ∨ c = '_' ∨ c = '-'

/-- `_getIndentLevel`: number of leading whitespace characters. -/
def indentLevel (line : String) : Nat :=
  (line.data.takeWhile isWsChar).length

/-- Match `^(\s*)([\w_-]+):\s*(.*)$` and return key and value. -/
def matchKeyLine (line : String) : Option (String × String) :=
  let cs := line.data.dropWhile isWsChar
  let key := cs.takeWhile isKeyChar
  if key = [] then none
  else
    match cs.drop key.length with
    | ':' :: rest => some (⟨key⟩, ⟨rest.dropWhile isWsChar⟩)
    | _ => none

/-- `^-?\d+$` -/
def isIntLiteral (cs : List Char) : Bool :=
  let ds := match cs with
    | '-' :: rest => rest
    | _ => cs
  ds ≠ [] ∧ ds.all isDigitChar

/-- `^-?\d+\.\d+$` -/
def isFloatLiteral (cs : List Char) : Bool :=
  let ds := match cs with
    | '-' :: rest => rest
    | _ => cs
  let ip := ds.takeWhile isDigitChar
  match ds.drop ip.length with
  | '.' :: fp => ip ≠ [] ∧ fp ≠ [] ∧ fp.all isDigitChar
  | _ => false

/-- `parseInt(value, 10)` on a string matching `^-?\d+$`. -/
def intLiteralVal (cs : List Char) : ℚ :=
  match cs with
  | '-' :: rest => mkRat (-(digitsVal rest : Int)) 1
  | _ => mkRat (digitsVal cs : Int) 1

/-- `parseFloat(value)` on a string matching `^-?\d+\.\d+$`. -/
def floatLiteralVal (cs : List Char) : ℚ :=
  let (neg, ds) : Bool × List Char :=
    match cs with
    | '-' :: rest => (true, rest)
    | _ => (false, cs)
  let ip := ds.takeWhile isDigitChar
  let fp := ds.drop (ip.length + 1)
  let n : Nat := digitsVal ip * 10 ^ fp.length + digitsVal fp
  mkRat (if neg then -(n : Int) else (n : Int)) (10 ^ fp.length)

/-- Strip matching single or double quotes from an inline-array item. -/
def stripItemQuotes (s : String) : String :=
  let cs := s.data
  match cs with
  | [] => s
  | c :: _ =>
    if (c = '"' ∧ cs.getLast? = some '"') ∨ (c = '\'' ∧ cs.getLast? = some '\'') then
      ⟨(cs.drop 1).dropLast⟩
    else s

/-- `_parseYamlValue`. -/
def parseYamlValue (raw : String) : Except String FmVal :=
  let value := jsTrim raw
  let cs := value.data
  if value = "" then .ok (.s "")
  else if value = "true" then .ok (.b true)
  else if value = "false" then .ok (.b false)
  else if isIntLiteral cs then .ok (.n (intLiteralVal cs))
  else if isFloatLiteral cs then .ok (.n (floatLiteralVal cs))
  else if strStartsWith value "[" ∧ cs.getLast? = some ']' then
    let inner := (cs.drop 1).dropLast
    if jsTrim ⟨inner⟩ = "" then .ok (.arr [])
    else .ok (.arr ((splitOnChar ',' inner).map (fun item => stripItemQuotes (jsTrim ⟨item⟩))))
  else if strStartsWith value "\"" ∧ cs.getLast? = some '"' then
    .ok (.s ⟨(cs.drop 1).dropLast⟩)
  else if strStartsWith value "'" then
    .error "ReferenceError: item is not defined"
  else .ok (.s value)

/-- `_parseYamlBlock`, as a fuelled loop (the source's `while` over the
line index; `lines.length + 1` fuel is enough since every step advances
the index).  Returns the parsed mapping and the index it stopped at. -/
def parseYamlBlock (lines : List String) :
    Nat → Nat → Nat → List (String × FmVal) →
    Except String (List (String × FmVal) × Nat)
  | 0, i, _, acc => .ok (acc, i)
  | fuel + 1, i, baseIndent, acc =>
    match lines.get? i with
    | none => .ok (acc, i)
    | some line =>
      let indent := indentLevel line
      if indent < baseIndent ∧ jsTrim line ≠ "" then .ok (acc, i)
      else if jsTrim line = "" ∨ strStartsWith (jsTrim line) "#" then
        parseYamlBlock lines fuel (i + 1) baseIndent acc
      else
        match matchKeyLine line with
        | none => parseYamlBlock lines fuel (i + 1) baseIndent acc
        | some (key, value) =>
          let nextIndent : Option Nat := (lines.get? (i + 1)).map indentLevel
          let nextDeeper : Bool := match nextIndent with
            | some ni => indent < ni
            | none => false
          if value = "" ∧ nextDeeper then
            match parseYamlBlock lines fuel (i + 1) ((nextIndent).getD 0) [] with
            | .error e => .error e
            | .ok (nested, ni) =>
              parseYamlBlock lines fuel ni baseIndent (setKey acc key (.obj nested))
          else
            match parseYamlValue value with
            | .error e => .error e
            | .ok v => parseYamlBlock lines fuel (i + 1) baseIndent (setKey acc key v)

/-- A closing front-matter delimiter: `trim() === '---'` together with
the regex `^(---\s*)$`. -/
def isCloseDelim (line : String) : Bool :=
  line.data.take 3 = ['-', '-', '-'] ∧ (line.data.drop 3).all isWsChar

/-- `parseFrontmatter(content)`: front-matter mapping and body.  Content
whose first line is not exactly `---`, or with no closing delimiter,
parses as `({}, content)`. -/
def parseFrontmatter (content : String) : Except String (List (String × FmVal) × String) :=
  let lines := splitLines content
  match lines.get? 0 with
  | none => .ok ([], content)
  | some first =>
    if first ≠ "---" then .ok ([], content)
    else
      match ((lines.drop 1).findIdx? isCloseDelim).map (· + 1) with
      | none => .ok ([], content)
      | some endIdx =>
        let yamlLines := (lines.drop 1).take (endIdx - 1)
        match parseYamlBlock yamlLines (yamlLines.length + 1) 0 0 [] with
        | .error e => .error e
        | .ok (fm, _) => .ok (fm, joinLines (lines.drop (endIdx + 1)))

/-! ## `buildNote` (vault-client.js) -/

/-- JS boolean to string. -/
def boolToStr (b : Bool) : String :=
  if b then "true" else "false"

/-- JS number-to-string for the rationals the YAML parser produces
(integers and terminating decimals; non-terminating expansions never
arise from parsed front-matter and fall back to a fraction form). -/
def fmNumToString (q : ℚ) : String :=
  if q.den = 1 then intToStr q.num
  else
    match (List.range 21).find? (fun k => 0 < k ∧ 10 ^ k % q.den = 0) with
    | some k =>
      let scaled : Nat := q.num.natAbs * (10 ^ k / q.den)
      let ip : Nat := scaled / 10 ^ k
      let fracVal : Nat := scaled % 10 ^ k
      let fracDigits := (natToStr (fracVal + 10 ^ k)).data.drop 1
      let fracTrimmed := fracDigits.reverse.dropWhile (fun c => c = '0') |>.reverse
      (if q.num < 0 then "-" else "") ++ natToStr ip ++ "." ++ ⟨fracTrimmed⟩
    | none => intToStr q.num ++ "/" ++ natToStr q.den

/-- `'  '.repeat(indent)` -/
def indentStr (n : Nat) : String :=
  ⟨List.replicate (2 * n) ' '⟩

/-- Comma-join of an inline array (`value.join(', ')`). -/
def joinCommaSp : List String → String
  | [] => ""
  | [x] => x
  | x :: rest => x ++ ", " ++ joinCommaSp rest

mutual

/-- `_addYamlField`: the serialized lines for one field. -/
def yamlFieldLines (ind : Nat) (k : String) : FmVal → List String
  | .arr xs => [indentStr ind ++ k ++ ": [" ++ joinCommaSp xs ++ "]"]
  | .obj kvs => (indentStr ind ++ k ++ ":") :: yamlObjLines (ind + 1) kvs
  | .b v => [indentStr ind ++ k ++ ": " ++ boolToStr v]
  | .n q => [indentStr ind ++ k ++ ": " ++ fmNumToString q]
  | .s v => [indentStr ind ++ k ++ ": " ++ v]

/-- Serialized lines for the fields of a nested mapping. -/
def yamlObjLines (ind : Nat) : List (String × FmVal) → List String
  | [] => []
  | (k, v) :: rest => yamlFieldLines ind k v ++ yamlObjLines ind rest

end

/-- `buildNote(frontmatter, body)` (`Object.keys(frontmatter).length
=== 0` returns the bare body). -/
def buildNote (fm : List (String × FmVal)) (body : String) : String :=
  if fm.isEmpty then body
  else joinLines (("---" :: yamlObjLines 0 fm) ++ ["---"]) ++ "\n" ++ body

/-! ## Learner (learning.js)

`extractKeywords`, `isStopWord` and `getFolderHints`.  The learner's
persisted state is the folder-pattern table (the correction log is not
consumed by the filing path). -/

/-- The fixed stop-word list of `isStopWord`. -/
def stopWords : List String :=
  ["this", "that", "with", "from", "have", "will", "been",
   "were", "their", "what", "which", "when", "where", "there",
   "about", "would", "could", "should", "these", "those"]

/-- `isStopWord(word)`. -/
def isStopWord (word : String) : Bool :=
  stopWords.contains word

/-- The markdown symbols stripped by `extractKeywords`:
`/[#*`[\]()]/g` replaced by a space. -/
def isMdSymbol (c : Char) : Bool :=
  c = '#' ∨ c = '*' ∨ c = '`' ∨ c = '[' ∨ c = ']' ∨ c = '(' ∨ c = ')'

/-- Remove the first (lazy) match of `/---[\s\S]*?---/`: the span from
the first `---` to the end of the next `---` at least three characters
later; no change when no such pair exists. -/
def stripFmDelims (cs : List Char) : List Char :=
  match List.range cs.length |>.find? (fun i => (cs.drop i).take 3 = ['-', '-', '-']) with
  | none => cs
  | some i =>
    match List.range cs.length |>.find?
        (fun j => i + 3 ≤ j ∧ (cs.drop j).take 3 = ['-', '-', '-']) with
    | none => cs
    | some j => cs.take i ++ cs.drop (j + 3)

/-- The cleaned, lower-cased word list of `extractKeywords`: strip the
front-matter span and markdown symbols, lower-case, split on whitespace
runs, drop tokens of length ≤ 3 and stop-words.  (The `split(/\s+/)`
edge tokens are empty strings, removed by the length filter.) -/
def keywordWords (content : String) : List String :=
  let cleaned := (stripFmDelims content.data).map
    (fun c => if isMdSymbol c then ' ' else c) |>.map jsLowerChar
  let words := (splitOnChar ' ' (cleaned.map (fun c => if isWsChar c then ' ' else c))).map
    (fun g => (⟨g⟩ : String))
  (words.filter (fun w => 3 < w.length)).filter (fun w => ¬ isStopWord w)

/-- One step of frequency counting: `freq[word] = (freq[word] || 0) + 1`
on a JS object. -/
def freqStep (acc : List (String × Nat)) (w : String) : List (String × Nat) :=
  if acc.any (fun p => p.1 = w) then assocAdjust acc w (· + 1)
  else acc ++ [(w, 1)]

/-- Frequency table in first-occurrence order. -/
def freqTable (ws : List String) : List (String × Nat) :=
  ws.foldl freqStep []

/-- Stable insertion keeping earlier entries ahead on ties — the JS
stable `sort((a, b) => b[1] - a[1])`. -/
def insertByFreq (p : String × Nat) : List (String × Nat) → List (String × Nat)
  | [] => [p]
  | q :: rest => if p.2 ≤ q.2 then q :: insertByFreq p rest else p :: q :: rest

/-- Stable sort of the frequency table by descending count. -/
def sortByFreq (l : List (String × Nat)) : List (String × Nat) :=
  l.foldl (fun acc p => insertByFreq p acc) []

/-- `extractKeywords(content)`: tokens sorted by descending frequency,
capped at 20. -/
def extractKeywords (content : String) : List String :=
  ((sortByFreq (freqTable (keywordWords content))).map Prod.fst).take 20

/-- A folder's learned pattern: hit count and keyword frequencies. -/
structure FolderPattern where
  count : Nat
  keywords : List (String × Nat)
deriving DecidableEq, Repr

/-- The learner's persisted state (the slice the filer reads). -/
structure LearningData where
  folderPatterns : List (String × FolderPattern)
deriving DecidableEq, Repr

/-- Result of `getFolderHints`. -/
structure FolderHints where
  suggestedFolder : Option String
  confidence : ℚ
deriving DecidableEq, Repr

/-- One folder's score: `Σ patterns.keywords[k]` over extracted keywords
`k` (absent/zero entries are skipped by the `if` guard, adding zero
either way), divided by `patterns.count || 1`. -/
def folderScore (pat : FolderPattern) (keywords : List String) : ℚ :=
  let total : Nat := (keywords.map (fun k => (assocGet pat.keywords k).getD 0)).sum
  mkRat (total : Int) (if pat.count = 0 then 1 else pat.count)

/-- `getFolderHints(noteContent)`: with no folder patterns return
`{ suggestedFolder: null, confidence: 0 }`; otherwise score every
folder, pick the first strictly-highest scorer (`score > bestScore`
starting from `null`/`0`), and clamp `bestScore / 10` to `[0, 1]`. -/
def getFolderHints (data : LearningData) (noteContent : String) : FolderHints :=
  if data.folderPatterns.isEmpty then ⟨none, 0⟩
  else
    let keywords := extractKeywords noteContent
    let scores := data.folderPatterns.map (fun fp => (fp.1, folderScore fp.2 keywords))
    let best := scores.foldl
      (fun best fs => if best.2 < fs.2 then (some fs.1, fs.2) else best)
      ((none : Option String), (0 : ℚ))
    let scaled := mkRat best.2.num (best.2.den * 10)
    ⟨best.1, if 1 ≤ scaled then 1 else scaled⟩

/-! ## Operation Ledger (undo.js)

Sessions of tracked operations, persisted in `filing-history.json`;
`saveHistory` prunes to the 100 most recent sessions by `startTime`
whenever more than 100 are stored. -/

/-- One tracked relocation. -/
structure Operation where
  action : String
  originalPath : String
  targetPath : String
  timestamp : Nat
  originalContent : String
  newContent : String
deriving DecidableEq, Repr

/-- One filing session (`undone` is absent-as-false in the JSON). -/
structure Session where
  startTime : Nat
  operations : List Operation
  undone : Bool
  undoneAt : Option Nat
deriving DecidableEq, Repr

/-- The persisted filing history. -/
structure History where
  sessions : List (String × Session)
deriving DecidableEq, Repr

/-- Session lookup. -/
def lookupSession (h : History) (sid : String) : Option Session :=
  assocGet h.sessions sid

/-- Stable insertion by descending `startTime` (the JS stable
`sort((a, b) => b[1].startTime - a[1].startTime)`). -/
def insertByStart (p : String × Session) : List (String × Session) → List (String × Session)
  | [] => [p]
  | q :: rest =>
    if p.2.startTime ≤ q.2.startTime then q :: insertByStart p rest else p :: q :: rest

/-- `saveHistory`'s pruning: with more than 100 sessions, keep the 100
most recent by `startTime`. -/
def pruneHistory (h : History) : History :=
  if 100 < h.sessions.length then
    ⟨(h.sessions.foldl (fun acc p => insertByStart p acc) []).take 100⟩
  else h

/-- `trackOperation(sessionId, operation)`: create the session lazily
(`startTime` = now) and append the operation; every save runs the
pruning of `saveHistory`. -/
def trackOperation (h : History) (sid : String) (op : Operation) (now : Nat) : History :=
  let sessions :=
    if h.sessions.any (fun p => p.1 = sid) then
      assocAdjust h.sessions sid (fun s => { s with operations := s.operations ++ [op] })
    else h.sessions ++ [(sid, ⟨now, [op], false, none⟩)]
  pruneHistory ⟨sessions⟩

/-- Error message rendering (nano's 404 errors carry `404` in the text
the undo path matches on). -/
def VErr.message : VErr → String
  | .notFound => "404 - not found"
  | .emsg m => m

/-- `undoOperation`: restore `originalContent` at `originalPath`, then
delete `targetPath`, tolerating a 404 on the delete (`if
(!err.message.includes('404')) throw err`).  Unknown actions throw.  (In
this embedding the delete can only fail with `notFound`, so the
error branch never carries a half-applied store.) -/
def undoOperation (s : Store) (op : Operation) : Except VErr Store :=
  if op.action = "file" ∨ op.action = "queue" then
    let s₁ := s.writeNote op.originalPath op.originalContent
    match s₁.deleteNote op.targetPath with
    | .ok s₂ => .ok s₂
    | .error .notFound => .ok s₁
    | .error e => .error e
  else .error (.emsg ("Unknown operation type: " ++ op.action))

/-- Per-operation undo outcome recorded in the result. -/
structure UndoDetail where
  action : String
  path : String
  status : String
  error : Option String
deriving DecidableEq, Repr

/-- Result of `undoLastFiling`. -/
structure UndoResult where
  sessionId : String
  undone : Nat
  failed : Nat
  details : List UndoDetail
deriving DecidableEq, Repr

/-- `undoLastFiling(sessionId)`: throws `Session not found` for an
unknown id; otherwise replays the session's operations in reverse
order, collecting per-operation failures, then marks the session
`undone` with an `undoneAt` timestamp and saves (pruning).  The
`undone` flag is never consulted. -/
def undoLastFiling (store : Store) (h : History) (sid : String) (now : Nat) :
    Except VErr UndoResult × Store × History :=
  match lookupSession h sid with
  | none => (.error (.emsg ("Session " ++ sid ++ " not found")), store, h)
  | some sess =>
    let ops := sess.operations.reverse
    let step := fun (acc : Store × Nat × Nat × List UndoDetail) (op : Operation) =>
      match undoOperation acc.1 op with
      | .ok s' => (s', acc.2.1 + 1, acc.2.2.1, acc.2.2.2 ++ [⟨op.action, op.originalPath, "undone", none⟩])
      | .error e =>
        (acc.1, acc.2.1, acc.2.2.1 + 1,
          acc.2.2.2 ++ [⟨op.action, op.originalPath, "failed", some e.message⟩])
    let fin := ops.foldl step (store, 0, 0, [])
    let h' := pruneHistory ⟨assocAdjust h.sessions sid
      (fun s => { s with undone := true, undoneAt := some now })⟩
    (.ok ⟨sid, fin.2.1, fin.2.2.1, fin.2.2.2⟩, fin.1, h')

/-! ## Filer (Phase 3 filer module)

`fileNotes`, `fileNote`, `queueForReview`, `buildUpdatedNote`,
`resolveCollision`, `getProcessedInboxNotes`.

A thrown JS exception is an `Except.error` carrying the message; the
per-note loop of `fileNotes` catches it, the batch only fails when
enumeration does.  The ambient state (store, filing history, learning
data) is threaded explicitly; `Date.now()` / `toISOString()` values are
explicit `now`/`nowIso` arguments. -/

/-- The whole mutable environment the filer touches. -/
structure SysState where
  store : Store
  history : History
  learning : LearningData
deriving DecidableEq, Repr

/-- An enumerated inbox note: path, parsed front-matter, body, raw
content. -/
structure NoteRec where
  path : String
  frontmatter : List (String × FmVal)
  body : String
  content : String

/-- A per-note entry of `BatchResult.details`.  `preview := true` marks
the dry-run shape (which carries a `preview: true` field and, for
queued notes, omits the confidence). -/
inductive Detail where
  | filed (path targetPath : String) (tags : FmVal) (confidence : Option FmVal) (preview : Bool)
  | queued (path targetPath reason : String) (confidence : Option FmVal) (preview : Bool)
  | failed (path error : String)

/-- The `action` field of a detail record. -/
def Detail.action : Detail → String
  | .filed .. => "filed"
  | .queued .. => "queued"
  | .failed .. => "failed"

/-- The `path` field of a detail record. -/
def Detail.path : Detail → String
  | .filed p .. => p
  | .queued p .. => p
  | .failed p _ => p

/-- The `targetPath` field of a detail record (absent on failures). -/
def Detail.targetPath : Detail → Option String
  | .filed _ t .. => some t
  | .queued _ t .. => some t
  | .failed .. => none

/-- `||` on possibly-undefined JS values. -/
def jsOrVal (a b : Option FmVal) : Option FmVal :=
  if jsTruthy a then a else b

/-- `suggestions.tags || []`. -/
def tagsOrEmpty (sugg : FmVal) : FmVal :=
  match sugg.getProp "tags" with
  | some v => if v.truthy then v else .arr []
  | none => .arr []

/-- JS `.length` of a front-matter value (arrays and strings only;
`undefined` otherwise, and `undefined > 0` is false). -/
def jsLength : Option FmVal → Option Nat
  | some (.arr l) => some l.length
  | some (.s str) => some str.length
  | _ => none

/-- `notePath.replace(/\.md$/, '')`. -/
def stripMdExt (p : String) : String :=
  if p.data.reverse.take 3 = ['d', 'm', '.'] then ⟨p.data.take (p.data.length - 3)⟩ else p

/-- `join(' ')`. -/
def joinSpace : List String → String
  | [] => ""
  | [x] => x
  | x :: rest => x ++ " " ++ joinSpace rest

/-- The `-counter` suffixed collision candidate (`candidate 0` is the
target path itself). -/
def collisionCandidate (targetPath : String) : Nat → String
  | 0 => targetPath
  | k + 1 =>
    let parsed := pathParse targetPath
    pathJoin parsed.dir (parsed.name ++ "-" ++ natToStr (k + 1) ++ parsed.ext)

/-- The `while (await vaultClient.readNote(finalPath))` loop of
`resolveCollision` (fuelled; 101 units always suffice because the
counter throws past 100). -/
def resolveLoop (s : Store) (targetPath : String) : Nat → String → Nat → Except VErr String
  | 0, finalPath, _ => .ok finalPath
  | fuel + 1, finalPath, counter =>
    match s.readNote finalPath with
    | none => .ok finalPath
    | some _ =>
      let next := collisionCandidate targetPath counter
      if 100 < counter + 1 then .error (.emsg ("Too many collisions for " ++ targetPath))
      else resolveLoop s targetPath fuel next (counter + 1)

/-- `resolveCollision(vaultClient, targetPath, dryRun)`. -/
def resolveCollision (s : Store) (targetPath : String) (dryRun : Bool) : Except VErr String :=
  if dryRun then
    match s.readNote targetPath with
    | some _ => .ok (collisionCandidate targetPath 1)
    | none => .ok targetPath
  else resolveLoop s targetPath 101 targetPath 1

/-- The body rewrite driven by `suggestions.related`: append the
`## Related Notes` backlink section for a non-empty array, throw for a
non-empty string (which passes the truthy/length guard and then hits
`.map`, not a string method), keep the body otherwise. -/
def relatedBody : Option FmVal → String → Except String String
  | some (.arr l), body =>
    if l.isEmpty then .ok body
    else
      let backlinks := joinSpace (l.map (fun p => "[[" ++ stripMdExt p ++ "]]"))
      .ok (body ++ "\n\n## Related Notes\n" ++ backlinks)
  | some (.s str), body =>
    if str = "" then .ok body
    else .error "TypeError: suggestions.related.map is not a function"
  | _, body => .ok body

/-- `buildUpdatedNote(note, suggestions)`: set `tags` when the
suggestion carries a non-empty one, stamp `filed_at`/`filed_by`, drop
`ai_suggestions`, and rewrite the body per `relatedBody`. -/
def buildUpdatedNote (note : NoteRec) (sugg : FmVal) (nowIso : String) :
    Except String String :=
  let tagsVal := sugg.getProp "tags"
  let fm₁ :=
    match tagsVal with
    | some tv => if tv.truthy ∧ 0 < (jsLength tagsVal).getD 0 then setKey note.frontmatter "tags" tv
                 else note.frontmatter
    | none => note.frontmatter
  let fm₂ := setKey fm₁ "filed_at" (.s nowIso)
  let fm₃ := setKey fm₂ "filed_by" (.s "vault-curator")
  let fm₄ := delKey fm₃ "ai_suggestions"
  (relatedBody (sugg.getProp "related") note.body).map (fun body => buildNote fm₄ body)

/-- `suggestions.confidence` through the optional chain
`note.frontmatter.ai_suggestions?.confidence`. -/
def noteConfidence (note : NoteRec) : Option FmVal :=
  match fmGet note.frontmatter "ai_suggestions" with
  | some v => v.getProp "confidence"
  | none => none

/-- `queueForReview(vaultClient, note, dryRun, sessionId)`: hard-coded
queue folder `inbox/review-queue/`, front-matter marked with
`review_needed: true` and `queued_at`; dry-run returns the preview
detail without touching anything. -/
def queueForReview (st : SysState) (note : NoteRec) (dryRun : Bool) (sid : String)
    (nowIso : String) (now : Nat) : SysState × Except VErr Detail :=
  let queuePath := "inbox/review-queue/" ++ pathBasename note.path
  let fm' := setKey (setKey note.frontmatter "review_needed" (.b true)) "queued_at" (.s nowIso)
  let updated := buildNote fm' note.body
  if dryRun then
    (st, .ok (.queued note.path queuePath "Low confidence" none true))
  else
    let s₁ := st.store.writeNote queuePath updated
    match s₁.deleteNote note.path with
    | .error e => ({ st with store := s₁ }, .error e)
    | .ok s₂ =>
      let h' := trackOperation st.history sid ⟨"queue", note.path, queuePath, now, note.content, updated⟩ now
      ({ st with store := s₂, history := h' },
        .ok (.queued note.path queuePath "Low confidence" (noteConfidence note) false))

/-- `fileNote(vaultClient, note, options)`. -/
def fileNote (st : SysState) (note : NoteRec) (minConfidence : ℚ) (dryRun : Bool)
    (sid : String) (nowIso : String) (now : Nat) : SysState × Except VErr Detail :=
  match fmGet note.frontmatter "ai_suggestions" with
  | none =>
    (st, .error (.emsg "TypeError: Cannot read properties of undefined (reading 'confidence')"))
  | some sugg =>
    match parseConfidence (sugg.getProp "confidence") with
    | none => (st, .error (.emsg "TypeError: confidence.toLowerCase is not a function"))
    | some confidence =>
      if confidence < minConfidence then
        queueForReview st note dryRun sid nowIso now
      else
        let hints := getFolderHints st.learning note.body
        match jsOrVal (hints.suggestedFolder.map FmVal.s) (sugg.getProp "folder") with
        | some (.s folder) =>
          let fileName := pathBasename note.path
          let targetPath := pathJoin folder fileName
          match resolveCollision st.store targetPath dryRun with
          | .error e => (st, .error e)
          | .ok finalPath =>
            match buildUpdatedNote note sugg nowIso with
            | .error m => (st, .error (.emsg m))
            | .ok updatedNote =>
              if dryRun then
                (st, .ok (.filed note.path finalPath (tagsOrEmpty sugg) (sugg.getProp "confidence") true))
              else
                let s₁ := st.store.writeNote finalPath updatedNote
                match s₁.deleteNote note.path with
                | .error e => ({ st with store := s₁ }, .error e)
                | .ok s₂ =>
                  let h' := trackOperation st.history sid
                    ⟨"file", note.path, finalPath, now, note.content, updatedNote⟩ now
                  ({ st with store := s₂, history := h' },
                    .ok (.filed note.path finalPath (tagsOrEmpty sugg) (sugg.getProp "confidence") false))
        | _ => (st, .error (.emsg "TypeError: Path must be a string"))

/-- The enumeration loop of `getProcessedInboxNotes`: read each inbox
path, skip unreadable ones, and keep notes whose front-matter carries a
truthy `ai_suggestions` (a front-matter parse error aborts the
enumeration, as in the source where it is not per-note-guarded). -/
def collectProcessed (s : Store) : List String → Except String (List NoteRec)
  | [] => .ok []
  | p :: rest =>
    match s.readNote p with
    | none => collectProcessed s rest
    | some (path, content) =>
      match parseFrontmatter content with
      | .error e => .error e
      | .ok (fm, body) =>
        if jsTruthy (fmGet fm "ai_suggestions") then
          (collectProcessed s rest).map (fun l => ⟨path, fm, body, content⟩ :: l)
        else collectProcessed s rest

/-- `getProcessedInboxNotes(vaultClient)`; `inboxCfg` is the configured
`config.inbox.path`, defaulted to `inbox/` when falsy. -/
def getProcessedInboxNotes (s : Store) (inboxCfg : String) : Except String (List NoteRec) :=
  let inboxPath := if inboxCfg = "" then "inbox/" else inboxCfg
  collectProcessed s ((s.listNotes).filter (fun p => strStartsWith p inboxPath))

/-- Caller options of `fileNotes` (`none` = field absent). -/
structure FileOptions where
  limit : Option Int := none
  minConfidence : Option ℚ := none
  dryRun : Option Bool := none
  sessionId : Option String := none

/-- `options.limit || 10` (`0` is falsy). -/
def effLimit (o : FileOptions) : Int :=
  match o.limit with
  | some v => if v = 0 then 10 else v
  | none => 10

/-- `options.minConfidence || 0.7` (`0` is falsy). -/
def effMinConfidence (o : FileOptions) : ℚ :=
  match o.minConfidence with
  | some v => if v = 0 then mkRat 7 10 else v
  | none => mkRat 7 10

/-- `options.dryRun || false`. -/
def effDryRun (o : FileOptions) : Bool :=
  o.dryRun.getD false

/-- `options.sessionId || generateSessionId()` (`""` is falsy;
`generateSessionId`'s time-and-randomness value is the `genSid`
argument). -/
def effSessionId (o : FileOptions) (genSid : String) : String :=
  match o.sessionId with
  | some s => if s = "" then genSid else s
  | none => genSid

/-- `Array.prototype.slice(0, end)` with a possibly negative end. -/
def jsSlice {α : Type} (l : List α) (e : Int) : List α :=
  l.take (if e < 0 then ((l.length : Int) + e).toNat else e.toNat)

/-- The aggregate result of `fileNotes`. -/
structure BatchResult where
  sessionId : String
  processed : Nat
  filed : Nat
  queued : Nat
  skipped : Nat
  failed : Nat
  details : List Detail
  dryRun : Bool
  message : Option String

/-- Count of details with a given action. -/
def countAction (ds : List Detail) (a : String) : Nat :=
  (ds.filter (fun d => d.action = a)).length

/-- The per-note loop of `fileNotes`: each note's exception is caught
and recorded as a `failed` detail, and processing continues. -/
def runBatch (minConf : ℚ) (dryRun : Bool) (sid : String) (nowIso : String) (now : Nat) :
    SysState → List NoteRec → List Detail × SysState
  | st, [] => ([], st)
  | st, n :: rest =>
    let (st₁, res) := fileNote st n minConf dryRun sid nowIso now
    let d := match res with
      | .ok d => d
      | .error e => .failed n.path e.message
    let (ds, st₂) := runBatch minConf dryRun sid nowIso now st₁ rest
    (d :: ds, st₂)

/-- `fileNotes(options)` given the enumeration outcome `enum` (the
body's `try` wraps enumeration; the loop's counters are recovered here
from the accumulated details, exactly as the per-iteration increments
produce them). -/
def fileNotesWith (st : SysState) (opts : FileOptions) (genSid : String) (nowIso : String)
    (now : Nat) (enum : Except String (List NoteRec)) : Except String BatchResult × SysState :=
  let minConf := effMinConfidence opts
  let dryRun := effDryRun opts
  let sid := effSessionId opts genSid
  match enum with
  | .error e => (.error ("Filing failed: " ++ e), st)
  | .ok inboxNotes =>
    if inboxNotes.isEmpty then
      (.ok ⟨sid, 0, 0, 0, 0, 0, [], dryRun, some "No processed notes found in inbox"⟩, st)
    else
      let notesToProcess := jsSlice inboxNotes (effLimit opts)
      let (details, st') := runBatch minConf dryRun sid nowIso now st notesToProcess
      (.ok ⟨sid, details.length, countAction details "filed", countAction details "queued",
            countAction details "skipped", countAction details "failed", details, dryRun, none⟩,
        st')

/-- `fileNotes(options)` end to end. -/
def fileNotes (st : SysState) (opts : FileOptions) (inboxCfg genSid nowIso : String)
    (now : Nat) : Except String BatchResult × SysState :=
  fileNotesWith st opts genSid nowIso now (getProcessedInboxNotes st.store inboxCfg)

/-!
# Theorems

First, library lemmas about the assoc-list operations shared by the
store, the ledger and front-matter objects; then one theorem per claim.
-/

theorem assocGet_cons {β : Type} (p : String × β) (l : List (String × β)) (k : String) :
    assocGet (p :: l) k = if p.1 = k then some p.2 else assocGet l k := by
  by_cases h : p.1 = k <;> simp [assocGet, List.find?_cons, h]

theorem assocGet_append {β : Type} (l₁ l₂ : List (String × β)) (k : String) :
    assocGet (l₁ ++ l₂) k =
      match assocGet l₁ k with
      | some v => some v
      | none => assocGet l₂ k := by
  induction l₁ with
  | nil => simp [assocGet]
  | cons p l ih =>
    by_cases h : p.1 = k <;> simp [List.cons_append, assocGet_cons, h, ih]

theorem assocGet_eq_none_of_not_any {β : Type} {l : List (String × β)} {k : String}
    (h : l.any (fun p => p.1 = k) = false) : assocGet l k = none := by
  induction l with
  | nil => rfl
  | cons p l ih =>
    simp only [List.any_cons, Bool.or_eq_false_iff] at h
    have hp : ¬ p.1 = k := by simpa using h.1
    simp [assocGet_cons, hp, ih h.2]

theorem assocGet_isSome_of_any {β : Type} {l : List (String × β)} {k : String}
    (h : l.any (fun p => p.1 = k) = true) : (assocGet l k).isSome := by
  induction l with
  | nil => cases h
  | cons p l ih =>
    by_cases hp : p.1 = k
    · simp [assocGet_cons, hp]
    · simp only [List.any_cons] at h
      simp [assocGet_cons, hp, ih (by simpa [hp] using h)]

theorem assocGet_adjust {β : Type} (l : List (String × β)) (k : String) (f : β → β)
    (k' : String) :
    assocGet (assocAdjust l k f) k' =
      if k' = k then (assocGet l k).map f else assocGet l k' := by
  induction l with
  | nil => by_cases h : k' = k <;> simp [assocAdjust, assocGet, h]
  | cons p l ih =>
    simp only [assocAdjust, List.map_cons] at *
    by_cases hp : p.1 = k
    · simp only [if_pos hp]
      by_cases hk : k' = k
      · subst hk; simp [assocGet_cons, hp, ih]
      · have hkk : ¬ (k = k') := fun h => hk h.symm
        simp [assocGet_cons, hkk, hk, hp, ih]
    · simp only [if_neg hp]
      by_cases hk : k' = k
      · subst hk; simp [assocGet_cons, hp, ih]
      · by_cases hpk : p.1 = k' <;> simp [assocGet_cons, hp, hpk, hk, ih]

theorem assocGet_upd {β : Type} (l : List (String × β)) (k : String) (v : β) (k' : String) :
    assocGet (assocUpd l k v) k' = if k' = k then some v else assocGet l k' := by
  unfold assocUpd
  by_cases hany : l.any (fun p => p.1 = k)
  · have hmap : (l.map (fun p => if p.1 = k then (k, v) else p)) =
        assocAdjust l k (fun _ => v) := by
      simp [assocAdjust]
    rw [if_pos hany, hmap, assocGet_adjust]
    by_cases hk : k' = k
    · subst hk
      rcases Option.isSome_iff_exists.mp (assocGet_isSome_of_any hany) with ⟨w, hw⟩
      simp [hw]
    · simp [hk]
  · rw [if_neg hany, assocGet_append]
    have hnone : assocGet l k = none :=
      @assocGet_eq_none_of_not_any _ l k (Bool.eq_false_iff.mpr hany)
    by_cases hk : k' = k
    · subst hk; simp [hnone, assocGet_cons]
    · have hk' : ¬ k = k' := fun hh => hk hh.symm
      cases h : assocGet l k' with
      | none => simp [h, assocGet_cons, hk, hk', assocGet]
      | some w => simp [h, hk]

/-! ### Store lemmas -/

theorem mkRat_eq_d (n : Int) (d : Nat) : mkRat n d = (n : ℚ) / (d : ℚ) := by
  rw [Rat.mkRat_eq_divInt, Rat.divInt_eq_div]; norm_num

theorem Store.find?_writeNote (s : Store) (p c q : String) :
    (s.writeNote p c).find? q =
      if pathToId q = pathToId p then some ⟨p, sanitizeUnicode c, false⟩ else s.find? q := by
  simp [Store.writeNote, Store.find?, assocGet_upd]

theorem Store.readNote_def (s : Store) (p : String) :
    s.readNote p = (s.find? p).map (fun d => (d.path, d.content)) := rfl

theorem Store.deleteNote_of_none {s : Store} {p : String} (h : s.find? p = none) :
    s.deleteNote p = .error .notFound := by
  simp [Store.deleteNote, h]

theorem Store.deleteNote_of_some {s : Store} {p : String} {d : Doc} (h : s.find? p = some d) :
    s.deleteNote p = .ok ⟨assocUpd s.docs (pathToId p) ⟨d.path, "", true⟩⟩ := by
  simp [Store.deleteNote, h]

/-- Inversion for a successful delete: the document existed, and the
result tombstones exactly its id. -/
theorem Store.find?_deleteNote {s s' : Store} {p : String}
    (h : s.deleteNote p = .ok s') (q : String) :
    ∃ d, s.find? p = some d ∧
      s'.find? q = if pathToId q = pathToId p then some ⟨d.path, "", true⟩ else s.find? q := by
  unfold Store.deleteNote at h
  cases hf : s.find? p with
  | none => rw [hf] at h; cases h
  | some d =>
    rw [hf] at h
    refine ⟨d, rfl, ?_⟩
    cases h
    simp [Store.find?, assocGet_upd]

/-- Writes and deletes never remove a document id. -/
theorem Store.find?_isSome_writeNote {s : Store} {q : String} (p c : String)
    (h : (s.find? q).isSome) : ((s.writeNote p c).find? q).isSome := by
  rw [Store.find?_writeNote]
  split <;> simp [h]

theorem Store.find?_isSome_deleteNote {s s' : Store} {p q : String}
    (h : s.deleteNote p = .ok s') (hq : (s.find? q).isSome) : (s'.find? q).isSome := by
  obtain ⟨d, -, hd⟩ := Store.find?_deleteNote h q
  rw [hd]; split <;> simp [hq]

/-! ### C2 — `parseConfidence` -/

/-- C2, counterexample: `parseConfidence` does **not** always return a
value in `[0, 1]` — the numeric string `"1.5"` is parsed as a float and
passed through unchanged (`1.5 > 1`) — and it is not total over
"anything else": the truthy non-string `true` makes
`confidence.toLowerCase()` throw a `TypeError` instead of defaulting to
`0.5`. -/
theorem parseConfidence_not_unit_interval :
    parseConfidence (some (.s "1.5")) = some (mkRat 3 2) ∧ ¬ (mkRat 3 2 ≤ 1) ∧
      parseConfidence (some (.b true)) = none :=
  ⟨by decide, by decide, by decide⟩

/-- C2 (amended): `parseConfidence` implements the exact mapping —
`high → 0.9`, `medium → 0.6`, `low → 0.3` (case-insensitively), a
number passed through unchanged, a numeric string parsed as a float,
and `0.5` for every falsy value and for non-numeric strings; truthy
non-string non-number values throw.  The result lies in `[0, 1]` except
when an out-of-range number or numeric string is passed through. -/
theorem parseConfidence_spec :
    (∀ q : ℚ, parseConfidence (some (.n q)) = some q) ∧
    (∀ s : String, toLowerStr s = "high" → parseConfidence (some (.s s)) = some (9/10)) ∧
    (∀ s : String, toLowerStr s = "medium" → parseConfidence (some (.s s)) = some (6/10)) ∧
    (∀ s : String, toLowerStr s = "low" → parseConfidence (some (.s s)) = some (3/10)) ∧
    (∀ s : String, ∀ q : ℚ, toLowerStr s ≠ "high" → toLowerStr s ≠ "medium" →
      toLowerStr s ≠ "low" → parseFloatQ s = some q →
      parseConfidence (some (.s s)) = some q) ∧
    (∀ s : String, toLowerStr s ≠ "high" → toLowerStr s ≠ "medium" → toLowerStr s ≠ "low" →
      parseFloatQ s = none → parseConfidence (some (.s s)) = some (1/2)) ∧
    (parseConfidence none = some (1/2) ∧ parseConfidence (some (.b false)) = some (1/2)) ∧
    (parseConfidence (some (.b true)) = none ∧
      (∀ l, parseConfidence (some (.arr l)) = none) ∧
      (∀ l, parseConfidence (some (.obj l)) = none)) ∧
    (∀ v q, parseConfidence v = some q → (q < 0 ∨ 1 < q) →
      v = some (.n q) ∨ ∃ s, v = some (.s s) ∧ parseFloatQ s = some q) := by
  have h910 : mkRat 9 10 = (9/10 : ℚ) := by rw [mkRat_eq_d]; norm_num
  have h610 : mkRat 6 10 = (6/10 : ℚ) := by rw [mkRat_eq_d]; norm_num
  have h310 : mkRat 3 10 = (3/10 : ℚ) := by rw [mkRat_eq_d]; norm_num
  have h510 : mkRat 5 10 = (1/2 : ℚ) := by rw [mkRat_eq_d]; norm_num
  refine ⟨fun q => rfl, ?_, ?_, ?_, ?_, ?_, ⟨by simp [parseConfidence, h510], by simp [parseConfidence, h510]⟩, ⟨rfl, fun l => rfl, fun l => rfl⟩, ?_⟩
  · intro s hs; simp [parseConfidence, hs, h910]
  · intro s hs; simp [parseConfidence, hs, h610]
  · intro s hs; simp [parseConfidence, hs, h310]
  · intro s q h1 h2 h3 hp
    have hform : parseConfidence (some (.s s)) = some ((parseFloatQ s).getD (mkRat 5 10)) := by
      simp [parseConfidence, h1, h2, h3]
    rw [hform, hp]; rfl
  · intro s h1 h2 h3 hp; simp [parseConfidence, h1, h2, h3, hp, h510]
  · intro v q hv hrange
    match v with
    | some (.n q') =>
      left; simp [parseConfidence] at hv; rw [hv]
    | some (.s s) =>
      right
      refine ⟨s, rfl, ?_⟩
      by_cases hh : toLowerStr s = "high"
      · rw [show parseConfidence (some (.s s)) = some (9/10) by simp [parseConfidence, hh, h910]] at hv
        exfalso
        cases hv
        rcases hrange with h | h <;> norm_num at h
      · by_cases hm : toLowerStr s = "medium"
        · rw [show parseConfidence (some (.s s)) = some (6/10) by
            simp [parseConfidence, hh, hm, h610]] at hv
          exfalso; cases hv
          rcases hrange with h | h <;> norm_num at h
        · by_cases hl : toLowerStr s = "low"
          · rw [show parseConfidence (some (.s s)) = some (3/10) by
              simp [parseConfidence, hh, hm, hl, h310]] at hv
            exfalso; cases hv
            rcases hrange with h | h <;> norm_num at h
          · cases hp : parseFloatQ s with
            | none =>
              rw [show parseConfidence (some (.s s)) = some (1/2) by
                simp [parseConfidence, hh, hm, hl, hp, h510]] at hv
              exfalso; cases hv
              rcases hrange with h | h <;> norm_num at h
            | some q' =>
              have hform : parseConfidence (some (.s s)) =
                  some ((parseFloatQ s).getD (mkRat 5 10)) := by
                simp [parseConfidence, hh, hm, hl]
              rw [hform, hp] at hv
              simp only [Option.getD_some, Option.some_inj] at hv
              rw [hv]
    | some (.b true) => cases hv
    | some (.b false) =>
      exfalso
      simp [parseConfidence, h510] at hv
      rw [← hv] at hrange
      rcases hrange with h | h <;> norm_num at h
    | none =>
      exfalso
      simp [parseConfidence, h510] at hv
      rw [← hv] at hrange
      rcases hrange with h | h <;> norm_num at h
    | some (.arr l) => cases hv
    | some (.obj l) => cases hv

/-- Witness for C2's amended theorem at concrete inputs. -/
theorem parseConfidence_spec_witness :
    parseConfidence (some (.s "High")) = some (9/10) ∧
      parseConfidence (some (.s "0.75")) = some (mkRat 3 4) :=
  ⟨parseConfidence_spec.2.1 "High" (by decide),
    parseConfidence_spec.2.2.2.2.1 "0.75" (mkRat 3 4)
      (by decide) (by decide) (by decide) (by decide)⟩

/-! ### C10 — falsy option defaulting -/

/-- C10: `fileNotes` defaults its options with a falsy-or-default
check, so an explicit `0` is indistinguishable from an absent option:
`minConfidence = 0` means the default threshold `0.7` and `limit = 0`
means the default limit `10` — a caller cannot request a zero
confidence threshold or a zero-note batch. -/
theorem fileNotes_zero_option_defaults :
    (∀ st mc dr so inbox gen iso now,
      fileNotes st ⟨some 0, mc, dr, so⟩ inbox gen iso now =
        fileNotes st ⟨none, mc, dr, so⟩ inbox gen iso now) ∧
    (∀ st lim dr so inbox gen iso now,
      fileNotes st ⟨lim, some 0, dr, so⟩ inbox gen iso now =
        fileNotes st ⟨lim, none, dr, so⟩ inbox gen iso now) ∧
    (∀ mc dr so, effLimit ⟨some 0, mc, dr, so⟩ = 10 ∧ effLimit ⟨none, mc, dr, so⟩ = 10) ∧
    (∀ lim dr so, effMinConfidence ⟨lim, some 0, dr, so⟩ = 7/10 ∧
      effMinConfidence ⟨lim, none, dr, so⟩ = 7/10) := by
  have h710 : mkRat 7 10 = (7/10 : ℚ) := by rw [mkRat_eq_d]; norm_num
  refine ⟨fun st mc dr so inbox gen iso now => rfl,
    fun st lim dr so inbox gen iso now => rfl,
    fun mc dr so => ⟨rfl, rfl⟩,
    fun lim dr so => ⟨by simp [effMinConfidence, h710], by simp [effMinConfidence, h710]⟩⟩

/-! ### C9 — keyword extraction -/

theorem assocAny_eq_isSome {β : Type} (l : List (String × β)) (k : String) :
    l.any (fun p => p.1 = k) = (assocGet l k).isSome := by
  induction l with
  | nil => rfl
  | cons p l ih =>
    by_cases hp : p.1 = k <;> simp [assocGet_cons, hp, ih]

theorem keys_assocAdjust {β : Type} (l : List (String × β)) (k : String) (f : β → β) :
    (assocAdjust l k f).map Prod.fst = l.map Prod.fst := by
  induction l with
  | nil => rfl
  | cons p l ih =>
    simp only [assocAdjust, List.map_cons] at ih ⊢
    by_cases hp : p.1 = k
    · rw [if_pos hp, ih]; simp [hp]
    · rw [if_neg hp, ih]

/-- The frequency table maps every word to its exact occurrence count
(absent iff the count is zero). -/
theorem freqAux (ws : List String) :
    ∀ (processed : List String) (acc : List (String × Nat)),
    (∀ w, assocGet acc w = if processed.count w = 0 then none else some (processed.count w)) →
    ∀ w, assocGet (ws.foldl freqStep acc) w =
      if (processed ++ ws).count w = 0 then none else some ((processed ++ ws).count w) := by
  induction ws with
  | nil => intro processed acc hinv w; simpa using hinv w
  | cons x ws ih =>
    intro processed acc hinv w
    have hstep : ∀ w, assocGet (freqStep acc x) w =
        if (processed ++ [x]).count w = 0 then none
        else some ((processed ++ [x]).count w) := by
      intro w
      unfold freqStep
      rw [assocAny_eq_isSome]
      by_cases hx : (assocGet acc x).isSome
      · rw [if_pos hx]
        rw [assocGet_adjust]
        rcases Option.isSome_iff_exists.mp hx with ⟨n, hn⟩
        have hcx := hinv x
        rw [hn] at hcx
        by_cases hw : w = x
        · subst hw
          rw [if_pos rfl, hn]
          have hcnt : processed.count w ≠ 0 := by
            intro h0; rw [if_pos h0] at hcx; cases hcx
          rw [if_neg hcnt] at hcx
          have hn2 : n = processed.count w := by injection hcx
          subst hn2
          simp [List.count_append, hcnt]
        · rw [if_neg hw, hinv w]
          have : (processed ++ [x]).count w = processed.count w := by
            simp [List.count_append, List.count_singleton, hw]
          rw [this]
      · rw [if_neg hx]
        have hnone : assocGet acc x = none := Option.not_isSome_iff_eq_none.mp hx
        have hcx := hinv x
        rw [hnone] at hcx
        have hcnt0 : processed.count x = 0 := by
          by_cases h0 : processed.count x = 0
          · exact h0
          · rw [if_neg h0] at hcx; cases hcx
        rw [assocGet_append]
        by_cases hw : w = x
        · subst hw
          rw [hinv w, if_pos hcnt0]
          simp [assocGet_cons, List.count_append, hcnt0]
        · rw [hinv w]
          have hcw : (processed ++ [x]).count w = processed.count w := by
            simp [List.count_append, List.count_singleton, hw]
          rw [hcw]
          by_cases h0 : processed.count w = 0
          · simp [h0, assocGet_cons, Ne.symm hw, assocGet]
          · simp [h0]
    have := ih (processed ++ [x]) (freqStep acc x) hstep w
    simpa [List.append_assoc] using this

theorem freqTable_get (ws : List String) (w : String) :
    assocGet (freqTable ws) w = if ws.count w = 0 then none else some (ws.count w) := by
  have := freqAux ws [] [] (fun w => by simp [assocGet]) w
  simpa using this

theorem assocGet_none_iff {β : Type} (l : List (String × β)) (k : String) :
    assocGet l k = none ↔ k ∉ l.map Prod.fst := by
  induction l with
  | nil => simp [assocGet]
  | cons p l ih =>
    rw [assocGet_cons]
    by_cases hp : p.1 = k
    · simp [hp]
    · simp [hp, ih, Ne.symm hp]

theorem freqStep_keys_nodup {acc : List (String × Nat)}
    (hnd : (acc.map Prod.fst).Nodup) (x : String) :
    ((freqStep acc x).map Prod.fst).Nodup := by
  unfold freqStep
  by_cases hany : acc.any (fun p => p.1 = x)
  · rw [if_pos hany, keys_assocAdjust]; exact hnd
  · rw [if_neg hany]
    have hx : x ∉ acc.map Prod.fst := by
      rw [← assocGet_none_iff]
      rw [assocAny_eq_isSome] at hany
      exact Option.not_isSome_iff_eq_none.mp (by simpa using hany)
    simp [List.nodup_append, hnd, hx]

/-- The frequency table's keys are distinct. -/
theorem freqTable_keys_nodup (ws : List String) : ((freqTable ws).map Prod.fst).Nodup := by
  suffices h : ∀ (acc : List (String × Nat)), (acc.map Prod.fst).Nodup →
      ((ws.foldl freqStep acc).map Prod.fst).Nodup from h [] (by simp)
  induction ws with
  | nil => intro acc h; simpa using h
  | cons x ws ih =>
    intro acc h
    exact ih (freqStep acc x) (freqStep_keys_nodup h x)

/-- With distinct keys, membership determines the looked-up value. -/
theorem assocGet_of_mem_nodup {β : Type} {l : List (String × β)} {w : String} {n : β}
    (hnd : (l.map Prod.fst).Nodup) (hm : (w, n) ∈ l) : assocGet l w = some n := by
  induction l with
  | nil => cases hm
  | cons p l ih =>
    rw [List.map_cons, List.nodup_cons] at hnd
    rcases List.mem_cons.mp hm with hm1 | hm1
    · cases hm1; simp [assocGet_cons]
    · have hp : p.1 ≠ w := by
        intro h
        exact hnd.1 (h ▸ List.mem_map.mpr ⟨(w, n), hm1, rfl⟩)
      simp [assocGet_cons, hp, ih hnd.2 hm1]

/-- Every frequency-table entry's key occurs in the word list, with the
exact occurrence count as value. -/
theorem freqTable_mem_spec {ws : List String} {p : String × Nat} (h : p ∈ freqTable ws) :
    p.1 ∈ ws ∧ p.2 = ws.count p.1 := by
  have hget : assocGet (freqTable ws) p.1 = some p.2 := by
    obtain ⟨w, n⟩ := p
    exact assocGet_of_mem_nodup (freqTable_keys_nodup ws) h
  rw [freqTable_get] at hget
  by_cases h0 : ws.count p.1 = 0
  · rw [if_pos h0] at hget; cases hget
  · rw [if_neg h0] at hget
    refine ⟨?_, by injection hget.symm⟩
    exact List.count_pos_iff.mp (Nat.pos_of_ne_zero h0)

theorem mem_insertByFreq (p q : String × Nat) (l : List (String × Nat)) :
    q ∈ insertByFreq p l ↔ q = p ∨ q ∈ l := by
  induction l with
  | nil => simp [insertByFreq]
  | cons r l ih =>
    unfold insertByFreq
    by_cases hc : p.2 ≤ r.2
    · rw [if_pos hc]
      simp only [List.mem_cons, ih]
      tauto
    · rw [if_neg hc]
      simp only [List.mem_cons]

theorem sorted_insertByFreq (p : String × Nat) {l : List (String × Nat)}
    (h : l.Pairwise (fun a b => b.2 ≤ a.2)) :
    (insertByFreq p l).Pairwise (fun a b => b.2 ≤ a.2) := by
  induction l with
  | nil => simp [insertByFreq]
  | cons q l ih =>
    rw [List.pairwise_cons] at h
    unfold insertByFreq
    by_cases hc : p.2 ≤ q.2
    · rw [if_pos hc, List.pairwise_cons]
      refine ⟨?_, ih h.2⟩
      intro b hb
      rcases (mem_insertByFreq p b l).mp hb with hb | hb
      · rw [hb]; exact hc
      · exact h.1 b hb
    · rw [if_neg hc, List.pairwise_cons]
      refine ⟨?_, List.pairwise_cons.mpr h⟩
      intro b hb
      rcases List.mem_cons.mp hb with hb | hb
      · rw [hb]; exact Nat.le_of_lt (Nat.lt_of_not_le hc)
      · exact Nat.le_trans (h.1 b hb) (Nat.le_of_lt (Nat.lt_of_not_le hc))

theorem mem_sortByFreq (l : List (String × Nat)) (q : String × Nat) :
    q ∈ sortByFreq l ↔ q ∈ l := by
  suffices h : ∀ acc : List (String × Nat),
      (q ∈ l.foldl (fun acc p => insertByFreq p acc) acc ↔ q ∈ acc ∨ q ∈ l) by
    simpa [sortByFreq] using h []
  induction l with
  | nil => intro acc; simp
  | cons p l ih =>
    intro acc
    simp only [List.foldl_cons, ih, mem_insertByFreq, List.mem_cons]
    tauto

theorem sorted_sortByFreq (l : List (String × Nat)) :
    (sortByFreq l).Pairwise (fun a b => b.2 ≤ a.2) := by
  suffices h : ∀ acc : List (String × Nat), acc.Pairwise (fun a b => b.2 ≤ a.2) →
      (l.foldl (fun acc p => insertByFreq p acc) acc).Pairwise (fun a b => b.2 ≤ a.2) by
    simpa [sortByFreq] using h [] (by simp)
  induction l with
  | nil => intro acc h; simpa using h
  | cons p l ih =>
    intro acc h
    exact ih (insertByFreq p acc) (sorted_insertByFreq p h)

/-- The words surviving the cleaning pipeline are longer than three
characters and are not stop-words. -/
theorem keywordWords_prop (content : String) :
    ∀ w ∈ keywordWords content, 3 < w.length ∧ isStopWord w = false := by
  intro w hw
  unfold keywordWords at hw
  simp only [List.mem_filter] at hw
  exact ⟨by simpa using hw.1.2, by simpa using hw.2⟩

/-- C9: for every input, `extractKeywords` returns at most 20 tokens,
none of which is a stop-word and none of which has length ≤ 3, ordered
by descending frequency of occurrence in the cleaned, lower-cased word
list (`keywordWords`). -/
theorem extractKeywords_spec (content : String) :
    (extractKeywords content).length ≤ 20 ∧
    (∀ w ∈ extractKeywords content, isStopWord w = false ∧ ¬ (w.length ≤ 3)) ∧
    (extractKeywords content).Pairwise
      (fun a b => (keywordWords content).count b ≤ (keywordWords content).count a) := by
  refine ⟨?_, ?_, ?_⟩
  · unfold extractKeywords
    simp [List.length_take_le]
  · intro w hw
    unfold extractKeywords at hw
    have hw2 : w ∈ (sortByFreq (freqTable (keywordWords content))).map Prod.fst :=
      List.mem_of_mem_take hw
    obtain ⟨p, hp, hfst⟩ := List.mem_map.mp hw2
    have hpf : p ∈ freqTable (keywordWords content) := (mem_sortByFreq _ _).mp hp
    have hmem : p.1 ∈ keywordWords content := (freqTable_mem_spec hpf).1
    have hprop := keywordWords_prop content p.1 hmem
    rw [hfst] at hprop
    exact ⟨hprop.2, by omega⟩
  · unfold extractKeywords
    apply List.Pairwise.sublist (List.take_sublist _ _)
    rw [List.pairwise_map]
    have hs := sorted_sortByFreq (freqTable (keywordWords content))
    refine hs.imp_of_mem ?_
    intro p q hp hq hle
    have hp2 := freqTable_mem_spec ((mem_sortByFreq _ _).mp hp)
    have hq2 := freqTable_mem_spec ((mem_sortByFreq _ _).mp hq)
    rw [← hp2.2, ← hq2.2]
    exact hle


/-! ### C6 — collision resolution -/

/-- Characterization of the collision loop on the free side: starting
at candidate `b` (counter `b+1`), if candidates `b..k-1` are occupied
and candidate `k ≤ 99` is free, the loop returns candidate `k`. -/
theorem resolveLoop_ok_of_free (s : Store) (t : String) :
    ∀ (fuel b k : Nat), b + fuel = 101 → b ≤ k → k ≤ 99 →
    (∀ j, b ≤ j → j < k → (s.readNote (collisionCandidate t j)).isSome) →
    s.readNote (collisionCandidate t k) = none →
    resolveLoop s t fuel (collisionCandidate t b) (b + 1) = .ok (collisionCandidate t k) := by
  intro fuel
  induction fuel with
  | zero => intro b k hsum hbk hk99 _ _; omega
  | succ fuel ih =>
    intro b k hsum hbk hk99 hocc hfree
    by_cases hb : b = k
    · subst hb
      simp [resolveLoop, hfree]
    · have hblt : b < k := Nat.lt_of_le_of_ne hbk hb
      obtain ⟨v, hv⟩ := Option.isSome_iff_exists.mp (hocc b Nat.le.refl hblt)
      have hnc : ¬ (100 < b + 1 + 1) := by omega
      simp only [resolveLoop, hv, hnc, if_false]
      exact ih (b + 1) k (by omega) (by omega) hk99
        (fun j hj hjk => hocc j (by omega) hjk) hfree

/-- Characterization on the exhausted side: if candidates `b..99` are
all occupied, the loop throws the collision error. -/
theorem resolveLoop_error_of_full (s : Store) (t : String) :
    ∀ (fuel b : Nat), b + fuel = 101 → b ≤ 99 →
    (∀ j, b ≤ j → j ≤ 99 → (s.readNote (collisionCandidate t j)).isSome) →
    resolveLoop s t fuel (collisionCandidate t b) (b + 1) =
      .error (.emsg ("Too many collisions for " ++ t)) := by
  intro fuel
  induction fuel with
  | zero => intro b hsum hb99 _; omega
  | succ fuel ih =>
    intro b hsum hb99 hocc
    obtain ⟨v, hv⟩ := Option.isSome_iff_exists.mp (hocc b Nat.le.refl hb99)
    by_cases hb : b = 99
    · subst hb
      have hc : 100 < 99 + 1 + 1 := by omega
      simp [resolveLoop, hv, hc]
    · have hnc : ¬ (100 < b + 1 + 1) := by omega
      simp only [resolveLoop, hv, hnc, if_false]
      exact ih (b + 1) (by omega) (by omega) (fun j hj hj99 => hocc j (by omega) hj99)

/-- Any path the (non-dry) collision loop returns is free in the store. -/
theorem resolveLoop_ok_free (s : Store) (t : String) :
    ∀ (fuel : Nat) (counter : Nat) (finalPath fp : String), 1 ≤ fuel →
    counter + fuel = 102 →
    resolveLoop s t fuel finalPath counter = .ok fp → s.readNote fp = none := by
  intro fuel
  induction fuel with
  | zero => intro counter fp _ h; omega
  | succ fuel ih =>
    intro counter finalPath fp _ hsum hloop
    rw [resolveLoop] at hloop
    cases hr : s.readNote finalPath with
    | none =>
      rw [hr] at hloop
      cases hloop
      exact hr
    | some v =>
      rw [hr] at hloop
      by_cases hc : 100 < counter + 1
      · rw [if_pos hc] at hloop; cases hloop
      · rw [if_neg hc] at hloop
        exact ih (counter + 1) _ fp (by omega) (by omega) hloop

/-- A successful non-dry `resolveCollision` returns a free path. -/
theorem resolveCollision_ok_free {s : Store} {t fp : String}
    (h : resolveCollision s t false = .ok fp) : s.readNote fp = none := by
  unfold resolveCollision at h
  rw [if_neg (by simp)] at h
  exact resolveLoop_ok_free s t 101 1 t fp (by omega) (by omega) h

/-- C6: collision resolution is monotonic and deterministic — the loop
picks the first free candidate among the target path and its suffixed
variants `name-1`, `name-2`, ..., fails with the collision-exhausted
error after 100 occupied attempts (candidates 0..99); filing two notes
with the same basename into the same folder in sequence yields the
plain name then the `-1` suffix; and a per-note collision error is
caught by the batch loop as a `failed` detail without aborting the
batch. -/
theorem resolveCollision_spec :
    (∀ (s : Store) (t : String), s.readNote t = none →
      resolveCollision s t false = .ok t) ∧
    (∀ (s : Store) (t : String) (k : Nat), k ≤ 99 →
      (∀ j, j < k → (s.readNote (collisionCandidate t j)).isSome) →
      s.readNote (collisionCandidate t k) = none →
      resolveCollision s t false = .ok (collisionCandidate t k)) ∧
    (∀ (s : Store) (t : String),
      (∀ j, j ≤ 99 → (s.readNote (collisionCandidate t j)).isSome) →
      resolveCollision s t false = .error (.emsg ("Too many collisions for " ++ t))) ∧
    (∀ (s : Store) (t c : String), s.readNote t = none →
      (s.writeNote t c).readNote (collisionCandidate t 1) = none →
      resolveCollision s t false = .ok t ∧
      resolveCollision (s.writeNote t c) t false = .ok (collisionCandidate t 1)) ∧
    (∀ (st : SysState) (n : NoteRec) (rest : List NoteRec) (minConf : ℚ) (dry : Bool)
        (sid iso : String) (now : Nat) (e : VErr),
      (fileNote st n minConf dry sid iso now).2 = .error e →
      runBatch minConf dry sid iso now st (n :: rest) =
        (Detail.failed n.path e.message ::
            (runBatch minConf dry sid iso now (fileNote st n minConf dry sid iso now).1 rest).1,
          (runBatch minConf dry sid iso now (fileNote st n minConf dry sid iso now).1 rest).2)) := by
  have hfirst : ∀ (s : Store) (t : String) (k : Nat), k ≤ 99 →
      (∀ j, j < k → (s.readNote (collisionCandidate t j)).isSome) →
      s.readNote (collisionCandidate t k) = none →
      resolveCollision s t false = .ok (collisionCandidate t k) := by
    intro s t k hk hocc hfree
    unfold resolveCollision
    rw [if_neg (by simp)]
    exact resolveLoop_ok_of_free s t 101 0 k (by omega) (Nat.zero_le k) hk
      (fun j _ hj => hocc j hj) hfree
  refine ⟨?_, hfirst, ?_, ?_, ?_⟩
  · intro s t ht
    exact hfirst s t 0 (by omega) (fun j hj => absurd hj (Nat.not_lt_zero j)) ht
  · intro s t hocc
    unfold resolveCollision
    rw [if_neg (by simp)]
    exact resolveLoop_error_of_full s t 101 0 (by omega) (by omega)
      (fun j _ hj => hocc j hj)
  · intro s t c ht hfree1
    refine ⟨hfirst s t 0 (by omega) (fun j hj => absurd hj (Nat.not_lt_zero j)) ht, ?_⟩
    refine hfirst (s.writeNote t c) t 1 (by omega) ?_ hfree1
    intro j hj
    have hj0 : j = 0 := by omega
    subst hj0
    show ((s.writeNote t c).readNote (collisionCandidate t 0)).isSome
    rw [show collisionCandidate t 0 = t from rfl, Store.readNote_def, Store.find?_writeNote]
    simp
  · intro st n rest minConf dry sid iso now e herr
    rw [runBatch]
    rcases hf : fileNote st n minConf dry sid iso now with ⟨st1, res⟩
    rw [hf] at herr
    simp only at herr
    rw [herr]

/-- Witness for C6 at a concrete store: an empty store files to the
plain name, and after writing there the next resolution picks `-1`. -/
theorem resolveCollision_spec_witness :
    resolveCollision (Store.mk []) "X/n.md" false = .ok "X/n.md" ∧
      resolveCollision ((Store.mk []).writeNote "X/n.md" "c") "X/n.md" false =
        .ok (collisionCandidate "X/n.md" 1) :=
  resolveCollision_spec.2.2.2.1 ⟨[]⟩ "X/n.md" "c" (by decide) (by decide)

/-! ### C5 — undoing an already-undone session -/

/-- Mark (or unmark) a session's `undone` flag, leaving everything else
unchanged. -/
def setSessionUndone (h : History) (sid : String) (b : Bool) (t : Option Nat) : History :=
  ⟨assocAdjust h.sessions sid (fun s => { s with undone := b, undoneAt := t })⟩

theorem assocAdjust_comp {β : Type} (l : List (String × β)) (k : String) (f g : β → β) :
    assocAdjust (assocAdjust l k f) k g = assocAdjust l k (fun x => g (f x)) := by
  induction l with
  | nil => rfl
  | cons p l ih =>
    by_cases hp : p.1 = k <;> simp [assocAdjust, hp] at * <;> exact ih

theorem assocAdjust_id_of_none {β : Type} {l : List (String × β)} {k : String}
    (h : assocGet l k = none) (f : β → β) : assocAdjust l k f = l := by
  induction l with
  | nil => rfl
  | cons p l ih =>
    rw [assocGet_cons] at h
    by_cases hp : p.1 = k
    · rw [if_pos hp] at h; cases h
    · rw [if_neg hp] at h
      have ihh := ih h
      unfold assocAdjust at ihh ⊢
      simp [hp, ihh]

/-- The operation list used for a session fixture in the C5
counterexample. -/
def c5Op : Operation :=
  ⟨"file", "inbox/a.md", "proj/a.md", 0, "X", "W"⟩

/-- A history whose only session is already marked undone. -/
def c5Hist : History := ⟨[("s", ⟨0, [c5Op], true, some 5⟩)]⟩

/-- A store state as it may look after the first undo plus a later
manual edit of the restored note (content `Y` instead of `X`). -/
def c5Store : Store :=
  ⟨[("inbox/a.md", ⟨"inbox/a.md", "Y", false⟩), ("proj/a.md", ⟨"proj/a.md", "Z", false⟩)]⟩

/-- C5, counterexample: undoing a session that is already marked
`undone` is neither rejected (the call succeeds) nor a no-op on the
store (the store changes: `originalContent` is written again and the
target re-deleted). -/
theorem undoLastFiling_undone_not_noop :
    Session.undone ((lookupSession c5Hist "s").getD ⟨0, [], false, none⟩) = true ∧
    (undoLastFiling c5Store c5Hist "s" 9).1.toOption =
      some ⟨"s", 1, 0, [⟨"file", "inbox/a.md", "undone", none⟩]⟩ ∧
    (undoLastFiling c5Store c5Hist "s" 9).2.1 ≠ c5Store :=
  ⟨by decide, by decide, by decide⟩

/-- C5 (amended): `undoLastFiling` never consults the `undone` flag —
its behaviour on a session is identical whatever the flag's value, so
an already-undone session is deterministically re-executed (each
operation's `originalContent` rewritten, its `targetPath` re-deleted)
rather than rejected or skipped; only an unknown session id is
rejected. -/
theorem undoLastFiling_ignores_undone_flag :
    (∀ (store : Store) (h : History) (sid : String) (now : Nat) (b : Bool) (t : Option Nat),
      undoLastFiling store (setSessionUndone h sid b t) sid now =
        undoLastFiling store h sid now) ∧
    (∀ (store : Store) (h : History) (sid : String) (now : Nat),
      (lookupSession h sid).isSome = true →
      ∃ r s2 h2, undoLastFiling store h sid now = (.ok r, s2, h2)) := by
  constructor
  · intro store h sid now b t
    have hlk : lookupSession (setSessionUndone h sid b t) sid =
        (lookupSession h sid).map (fun s => { s with undone := b, undoneAt := t }) := by
      unfold lookupSession setSessionUndone
      rw [assocGet_adjust]
      simp [lookupSession]
    cases hs : lookupSession h sid with
    | none =>
      have hid : setSessionUndone h sid b t = h := by
        unfold setSessionUndone
        rw [assocAdjust_id_of_none (by simpa [lookupSession] using hs)]
      rw [hid]
    | some sess =>
      rw [hs] at hlk
      have hmark : assocAdjust (setSessionUndone h sid b t).sessions sid
          (fun s => { s with undone := true, undoneAt := some now }) =
            assocAdjust h.sessions sid
              (fun s => { s with undone := true, undoneAt := some now }) := by
        unfold setSessionUndone
        rw [assocAdjust_comp]
      simp only [undoLastFiling, hlk, hs, Option.map_some', hmark]
  · intro store h sid now hsome
    obtain ⟨sess, hs⟩ := Option.isSome_iff_exists.mp hsome
    unfold undoLastFiling
    rw [hs]
    exact ⟨_, _, _, rfl⟩

/-- Witness for the amended C5 theorem: the already-undone session of
the counterexample is re-executed, not rejected. -/
theorem undoLastFiling_ignores_undone_flag_witness :
    (lookupSession c5Hist "s").isSome = true ∧
    ∃ r s2 h2, undoLastFiling c5Store c5Hist "s" 9 = (.ok r, s2, h2) :=
  ⟨by decide, undoLastFiling_ignores_undone_flag.2 c5Store c5Hist "s" 9 (by decide)⟩

/-! ### C8 — review-queue target path -/

/-- A store whose configured inbox path is `notes/in/` (not the default
`inbox/`), holding one low-confidence processed note. -/
def c8State : SysState :=
  ⟨⟨[("notes/in/a.md",
      ⟨"notes/in/a.md", "---\nai_suggestions:\n  confidence: low\n---\nB", false⟩)]⟩,
    ⟨[]⟩, ⟨[]⟩⟩

/-- C8, counterexample: with the inbox configured as `notes/in/`, the
queued note's target path is the hard-coded `inbox/review-queue/a.md`,
not `<inboxPath>/review-queue/a.md` = `notes/in/review-queue/a.md`. -/
theorem queuePath_ignores_configured_inbox :
    ((fileNotes c8State {} "notes/in/" "sid" "ISO" 5).1.toOption.map
        (fun r => r.details.map Detail.targetPath)) =
      some [some "inbox/review-queue/a.md"] ∧
    "inbox/review-queue/a.md" ≠ "notes/in/" ++ "review-queue/a.md" :=
  ⟨by decide, by decide⟩

/-- C8 (amended): every note queued for review goes to the literal
`inbox/review-queue/<basename(originalPath)>` — independent of the
configured inbox path — with front-matter gaining `review_needed: true`
and a `queued_at` timestamp, and a detail record with reason
`"Low confidence"`. -/
theorem queueForReview_spec :
    ∀ (st : SysState) (note : NoteRec) (sid iso : String) (now : Nat),
      (queueForReview st note true sid iso now =
        (st, .ok (.queued note.path ("inbox/review-queue/" ++ pathBasename note.path)
          "Low confidence" none true))) ∧
      (fmGet (setKey (setKey note.frontmatter "review_needed" (.b true)) "queued_at" (.s iso))
          "review_needed" = some (.b true) ∧
        fmGet (setKey (setKey note.frontmatter "review_needed" (.b true)) "queued_at" (.s iso))
          "queued_at" = some (.s iso)) ∧
      ((st.store.find? note.path).isSome = true →
        pathToId ("inbox/review-queue/" ++ pathBasename note.path) ≠ pathToId note.path →
        ∃ st2, queueForReview st note false sid iso now =
          (st2, .ok (.queued note.path ("inbox/review-queue/" ++ pathBasename note.path)
            "Low confidence" (noteConfidence note) false)) ∧
          st2.store.readNote ("inbox/review-queue/" ++ pathBasename note.path) =
            some ("inbox/review-queue/" ++ pathBasename note.path,
              sanitizeUnicode (buildNote
                (setKey (setKey note.frontmatter "review_needed" (.b true)) "queued_at" (.s iso))
                note.body))) := by
  intro st note sid iso now
  refine ⟨rfl, ⟨?_, ?_⟩, ?_⟩
  · have h1 : fmGet (setKey (setKey note.frontmatter "review_needed" (.b true)) "queued_at"
        (.s iso)) "review_needed" =
        fmGet (setKey note.frontmatter "review_needed" (.b true)) "review_needed" := by
      unfold fmGet setKey
      rw [assocGet_upd]
      simp
    rw [h1]
    unfold fmGet setKey
    rw [assocGet_upd]
    simp
  · unfold fmGet setKey
    rw [assocGet_upd]
    simp
  · intro hpres hne
    set queuePath := "inbox/review-queue/" ++ pathBasename note.path with hqp
    set updated := buildNote
      (setKey (setKey note.frontmatter "review_needed" (.b true)) "queued_at" (.s iso))
      note.body with hupd
    have hpres2 : ((st.store.writeNote queuePath updated).find? note.path).isSome :=
      Store.find?_isSome_writeNote queuePath updated hpres
    obtain ⟨d, hd⟩ := Option.isSome_iff_exists.mp hpres2
    have hdel := Store.deleteNote_of_some hd
    refine ⟨{ st with
        store := ⟨assocUpd (st.store.writeNote queuePath updated).docs (pathToId note.path)
          ⟨d.path, "", true⟩⟩,
        history := trackOperation st.history sid
          ⟨"queue", note.path, queuePath, now, note.content, updated⟩ now }, ?_, ?_⟩
    · unfold queueForReview
      rw [if_neg (by simp)]
      simp only [hdel]
    · have hfind : ((⟨assocUpd (st.store.writeNote queuePath updated).docs (pathToId note.path)
          ⟨d.path, "", true⟩⟩ : Store).find? queuePath) =
          (st.store.writeNote queuePath updated).find? queuePath := by
        unfold Store.find?
        rw [assocGet_upd]
        rw [if_neg hne]
      rw [Store.readNote_def, hfind, Store.find?_writeNote]
      simp

/-- Witness for the amended C8 theorem on a concrete queued note. -/
def c8WNote : NoteRec :=
  ⟨"inbox/w.md", [("ai_suggestions", .obj [("confidence", .s "low")])], "B", "raw"⟩

/-- Store for the C8 witness. -/
def c8WState : SysState :=
  ⟨⟨[("inbox/w.md", ⟨"inbox/w.md", "raw", false⟩)]⟩, ⟨[]⟩, ⟨[]⟩⟩

theorem queueForReview_spec_witness :
    (c8WState.store.find? c8WNote.path).isSome = true ∧
    ∃ st2, queueForReview c8WState c8WNote false "sid" "ISO" 7 =
      (st2, .ok (.queued c8WNote.path ("inbox/review-queue/" ++ pathBasename c8WNote.path)
        "Low confidence" (noteConfidence c8WNote) false)) ∧
      st2.store.readNote ("inbox/review-queue/" ++ pathBasename c8WNote.path) =
        some ("inbox/review-queue/" ++ pathBasename c8WNote.path,
          sanitizeUnicode (buildNote
            (setKey (setKey c8WNote.frontmatter "review_needed" (.b true)) "queued_at"
              (.s "ISO"))
            c8WNote.body)) :=
  ⟨by decide, (queueForReview_spec c8WState c8WNote "sid" "ISO" 7).2.2 (by decide) (by decide)⟩

/-! ### C4 — dry runs are pure -/

/-- The success/failure shape (and any error message) of
`buildUpdatedNote` does not depend on the `filed_at` timestamp. -/
theorem buildUpdatedNote_iso_cases (note : NoteRec) (sugg : FmVal) :
    (∀ iso, ∃ out, buildUpdatedNote note sugg iso = .ok out) ∨
    (∃ m, ∀ iso, buildUpdatedNote note sugg iso = .error m) := by
  cases hrb : relatedBody (sugg.getProp "related") note.body with
  | ok body2 =>
    left; intro iso
    unfold buildUpdatedNote
    rw [hrb]
    exact ⟨_, rfl⟩
  | error m =>
    right
    refine ⟨m, fun iso => ?_⟩
    unfold buildUpdatedNote
    rw [hrb]
    rfl

/-- A dry-run `fileNote` leaves the state untouched, and its detail (or
caught error) does not depend on the session id, timestamp or ISO
string. -/
theorem fileNote_dry_pure (st : SysState) (n : NoteRec) (mc : ℚ)
    (sid1 iso1 : String) (now1 : Nat) (sid2 iso2 : String) (now2 : Nat) :
    fileNote st n mc true sid1 iso1 now1 = (st, (fileNote st n mc true sid2 iso2 now2).2) := by
  unfold fileNote
  cases hs : fmGet n.frontmatter "ai_suggestions" with
  | none => rfl
  | some sugg =>
    dsimp only
    cases hc : parseConfidence (sugg.getProp "confidence") with
    | none => rfl
    | some conf =>
      dsimp only
      by_cases hlt : conf < mc
      · rw [if_pos hlt, if_pos hlt]
        unfold queueForReview
        rw [if_pos rfl, if_pos rfl]
      · rw [if_neg hlt, if_neg hlt]
        cases hfv : jsOrVal ((getFolderHints st.learning n.body).suggestedFolder.map FmVal.s)
            (sugg.getProp "folder") with
        | none => rfl
        | some fv =>
          cases fv with
          | s folder =>
            dsimp only
            cases hrc : resolveCollision st.store
                (pathJoin folder (pathBasename n.path)) true with
            | error e => rfl
            | ok fp =>
              dsimp only
              rcases buildUpdatedNote_iso_cases n sugg with hok | ⟨m, herr⟩
              · obtain ⟨o1, h1⟩ := hok iso1
                obtain ⟨o2, h2⟩ := hok iso2
                rw [h1, h2]
                rfl
              · rw [herr iso1, herr iso2]
          | b v => rfl
          | n v => rfl
          | arr v => rfl
          | obj v => rfl

/-- A dry-run batch loop is pure and its details are reproducible. -/
theorem runBatch_dry_pure (mc : ℚ) (sid1 iso1 : String) (now1 : Nat)
    (sid2 iso2 : String) (now2 : Nat) :
    ∀ (notes : List NoteRec) (st : SysState),
    runBatch mc true sid1 iso1 now1 st notes =
      ((runBatch mc true sid2 iso2 now2 st notes).1, st) := by
  intro notes
  induction notes with
  | nil => intro st; rfl
  | cons n rest ih =>
    intro st
    have hfn := fileNote_dry_pure st n mc sid1 iso1 now1 sid2 iso2 now2
    have hfn2 := fileNote_dry_pure st n mc sid2 iso2 now2 sid2 iso2 now2
    unfold runBatch
    rw [hfn, hfn2]
    simp only
    rw [ih st]

/-- C4: a `dryRun: true` call of `fileNotes` performs no write or
delete on the store and appends nothing to the ledger (the whole state
is returned unchanged), and running the same batch again — with a fresh
generated session id and fresh timestamps — produces identical
`BatchResult.details`. -/
theorem fileNotes_dryRun_pure (st : SysState) (opts : FileOptions)
    (inbox gen1 iso1 : String) (now1 : Nat) (gen2 iso2 : String) (now2 : Nat)
    (hdry : effDryRun opts = true) :
    (fileNotes st opts inbox gen1 iso1 now1).2 = st ∧
    ((fileNotes st opts inbox gen1 iso1 now1).1.toOption.map BatchResult.details) =
      ((fileNotes st opts inbox gen2 iso2 now2).1.toOption.map BatchResult.details) := by
  unfold fileNotes fileNotesWith
  rw [hdry]
  cases henum : getProcessedInboxNotes st.store inbox with
  | error e => exact ⟨rfl, rfl⟩
  | ok notes =>
    dsimp only
    by_cases hempty : notes.isEmpty = true
    · rw [if_pos hempty, if_pos hempty]
      exact ⟨rfl, rfl⟩
    · rw [if_neg hempty, if_neg hempty]
      have hrb := runBatch_dry_pure (effMinConfidence opts) (effSessionId opts gen1) iso1 now1
        (effSessionId opts gen2) iso2 now2 (jsSlice notes (effLimit opts)) st
      have hrb2 := runBatch_dry_pure (effMinConfidence opts) (effSessionId opts gen2) iso2 now2
        (effSessionId opts gen2) iso2 now2 (jsSlice notes (effLimit opts)) st
      rw [hrb, hrb2]
      exact ⟨rfl, rfl⟩

/-- Fixture for the C4 witness: one high-confidence processed note. -/
def c4State : SysState :=
  ⟨⟨[("inbox/d.md",
      ⟨"inbox/d.md", "---\nai_suggestions:\n  folder: p\n  confidence: high\n---\nB", false⟩)]⟩,
    ⟨[]⟩, ⟨[]⟩⟩

theorem fileNotes_dryRun_pure_witness :
    effDryRun ⟨none, none, some true, none⟩ = true ∧
    ((fileNotes c4State ⟨none, none, some true, none⟩ "inbox/" "g1" "i1" 1).2 = c4State ∧
      ((fileNotes c4State ⟨none, none, some true, none⟩ "inbox/" "g1" "i1" 1).1.toOption.map
          BatchResult.details) =
        ((fileNotes c4State ⟨none, none, some true, none⟩ "inbox/" "g2" "i2" 2).1.toOption.map
          BatchResult.details)) :=
  ⟨rfl, fileNotes_dryRun_pure c4State ⟨none, none, some true, none⟩ "inbox/" "g1" "i1" 1
    "g2" "i2" 2 rfl⟩

/-- Witness for C9's per-token facts at a concrete input. -/
theorem extractKeywords_spec_witness :
    isStopWord "deep" = false ∧ ¬ ("deep".length ≤ 3) :=
  (extractKeywords_spec "deep deep learning").2.1 "deep" (by decide)

/-! ### C7 — per-note failure isolation -/

/-- Every `ok` detail of `fileNote` carries the note's own path. -/
theorem fileNote_ok_path {st : SysState} {n : NoteRec} {mc : ℚ} {dry : Bool}
    {sid iso : String} {now : Nat} {st2 : SysState} {d : Detail}
    (h : fileNote st n mc dry sid iso now = (st2, .ok d)) : d.path = n.path := by
  unfold fileNote queueForReview at h
  repeat' first
    | split at h
    | dsimp only at h
  all_goals injection h with h1 h2
  all_goals cases h2
  all_goals rfl

/-- The batch loop produces one detail per note. -/
theorem runBatch_length (mc : ℚ) (dry : Bool) (sid iso : String) (now : Nat) :
    ∀ (notes : List NoteRec) (st : SysState),
    (runBatch mc dry sid iso now st notes).1.length = notes.length := by
  intro notes
  induction notes with
  | nil => intro st; rfl
  | cons n rest ih =>
    intro st
    unfold runBatch
    rcases hf : fileNote st n mc dry sid iso now with ⟨st1, res⟩
    dsimp only
    rcases hr : runBatch mc dry sid iso now st1 rest with ⟨ds, st2⟩
    have := ih st1
    rw [hr] at this
    simpa using this

/-- The detail at position `i` of the batch loop belongs to note `i`. -/
theorem runBatch_get_path (mc : ℚ) (dry : Bool) (sid iso : String) (now : Nat) :
    ∀ (notes : List NoteRec) (st : SysState) (i : Nat) (n : NoteRec),
    notes.get? i = some n →
    ∃ d, (runBatch mc dry sid iso now st notes).1.get? i = some d ∧ d.path = n.path := by
  intro notes
  induction notes with
  | nil => intro st i n h; cases h
  | cons m rest ih =>
    intro st i n h
    unfold runBatch
    rcases hf : fileNote st m mc dry sid iso now with ⟨st1, res⟩
    dsimp only
    rcases hr : runBatch mc dry sid iso now st1 rest with ⟨ds, st2⟩
    cases i with
    | zero =>
      rw [List.get?_cons_zero] at h
      injection h with h
      cases res with
      | ok d =>
        refine ⟨d, by simp, ?_⟩
        rw [← h]
        exact fileNote_ok_path hf
      | error e =>
        refine ⟨.failed m.path e.message, by simp, ?_⟩
        rw [← h]
        rfl
    | succ j =>
      rw [List.get?_cons_succ] at h
      obtain ⟨d, hd, hp⟩ := ih st1 j n h
      rw [hr] at hd
      refine ⟨d, ?_, hp⟩
      simpa using hd

/-- C7: a per-note exception is caught — the batch records a `failed`
detail for that note and keeps processing — and the `fileNotes` body
never throws once the inbox enumeration has succeeded: it throws
exactly when enumeration itself fails.  The result accounts for every
slice-selected note (one detail per note, carrying that note's path),
`processed` counts them all, and `failed` counts exactly the `failed`
details. -/
theorem fileNotes_failure_isolation :
    (∀ (st : SysState) (opts : FileOptions) (gen iso : String) (now : Nat) (e : String),
      fileNotesWith st opts gen iso now (.error e) = (.error ("Filing failed: " ++ e), st)) ∧
    (∀ (st : SysState) (opts : FileOptions) (gen iso : String) (now : Nat)
        (notes : List NoteRec),
      ∃ r st2, fileNotesWith st opts gen iso now (.ok notes) = (.ok r, st2)) ∧
    (∀ (st : SysState) (opts : FileOptions) (gen iso : String) (now : Nat)
        (notes : List NoteRec), notes.isEmpty = false →
      ∃ r st2, fileNotesWith st opts gen iso now (.ok notes) = (.ok r, st2) ∧
        r.processed = (jsSlice notes (effLimit opts)).length ∧
        r.details.length = r.processed ∧
        r.failed = countAction r.details "failed" ∧
        (∀ i n, (jsSlice notes (effLimit opts)).get? i = some n →
          ∃ d, r.details.get? i = some d ∧ d.path = n.path)) ∧
    (∀ (st : SysState) (n : NoteRec) (rest : List NoteRec) (mc : ℚ) (dry : Bool)
        (sid iso : String) (now : Nat) (e : VErr),
      (fileNote st n mc dry sid iso now).2 = .error e →
      (runBatch mc dry sid iso now st (n :: rest)).1.get? 0 =
        some (.failed n.path e.message) ∧
      (runBatch mc dry sid iso now st (n :: rest)).1.length = rest.length + 1) := by
  have hok : ∀ (st : SysState) (opts : FileOptions) (gen iso : String) (now : Nat)
      (notes : List NoteRec), notes.isEmpty = false →
      ∃ r st2, fileNotesWith st opts gen iso now (.ok notes) = (.ok r, st2) ∧
        r.processed = (jsSlice notes (effLimit opts)).length ∧
        r.details.length = r.processed ∧
        r.failed = countAction r.details "failed" ∧
        (∀ i n, (jsSlice notes (effLimit opts)).get? i = some n →
          ∃ d, r.details.get? i = some d ∧ d.path = n.path) := by
    intro st opts gen iso now notes hne
    unfold fileNotesWith
    dsimp only
    rw [hne]
    rw [if_neg (by simp)]
    rcases hr : runBatch (effMinConfidence opts) (effDryRun opts) (effSessionId opts gen)
        iso now st (jsSlice notes (effLimit opts)) with ⟨ds, st2⟩
    have hlen := runBatch_length (effMinConfidence opts) (effDryRun opts)
      (effSessionId opts gen) iso now (jsSlice notes (effLimit opts)) st
    rw [hr] at hlen
    refine ⟨_, (ds, st2).2, rfl, by simpa using hlen, by simp, rfl, ?_⟩
    intro i n hi
    obtain ⟨d, hd, hp⟩ := runBatch_get_path (effMinConfidence opts) (effDryRun opts)
      (effSessionId opts gen) iso now (jsSlice notes (effLimit opts)) st i n hi
    rw [hr] at hd
    exact ⟨d, by simpa using hd, hp⟩
  refine ⟨fun st opts gen iso now e => rfl, ?_, hok, ?_⟩
  · intro st opts gen iso now notes
    by_cases hne : notes.isEmpty = true
    · unfold fileNotesWith
      dsimp only
      rw [hne, if_pos rfl]
      exact ⟨_, st, rfl⟩
    · obtain ⟨r, st2, h, -⟩ := hok st opts gen iso now notes (Bool.eq_false_iff.mpr hne)
      exact ⟨r, st2, h⟩
  · intro st n rest mc dry sid iso now e herr
    constructor
    · unfold runBatch
      rcases hf : fileNote st n mc dry sid iso now with ⟨st1, res⟩
      rw [hf] at herr
      dsimp only at herr
      subst herr
      dsimp only
      rcases hr : runBatch mc dry sid iso now st1 rest with ⟨ds, st2⟩
      simp
    · have := runBatch_length mc dry sid iso now (n :: rest) st
      simpa using this

/-- Fixture for the C7 witness: a note whose suggestion has
`confidence: true`, which makes `parseConfidence` throw. -/
def c7Note : NoteRec :=
  ⟨"inbox/bad.md", [("ai_suggestions", .obj [("confidence", .b true)])], "B", "raw"⟩

/-- Store for the C7 witness. -/
def c7State : SysState :=
  ⟨⟨[("inbox/bad.md", ⟨"inbox/bad.md", "raw", false⟩)]⟩, ⟨[]⟩, ⟨[]⟩⟩

theorem fileNotes_failure_isolation_witness :
    (fileNote c7State c7Note (mkRat 7 10) false "s" "I" 1).2 =
      .error (.emsg "TypeError: confidence.toLowerCase is not a function") ∧
    ((runBatch (mkRat 7 10) false "s" "I" 1 c7State [c7Note]).1.get? 0 =
        some (.failed c7Note.path
          (VErr.emsg "TypeError: confidence.toLowerCase is not a function").message) ∧
      (runBatch (mkRat 7 10) false "s" "I" 1 c7State [c7Note]).1.length =
        ([] : List NoteRec).length + 1) :=
  ⟨rfl, fileNotes_failure_isolation.2.2.2 c7State c7Note [] (mkRat 7 10) false "s" "I" 1
    (.emsg "TypeError: confidence.toLowerCase is not a function") rfl⟩

/-! ### C3 — low confidence is always queued -/

/-- Store well-formedness: every document sits under the LiveSync id of
its own path (true of every store the client builds, and preserved by
`writeNote`/`deleteNote`). -/
def Store.wf (s : Store) : Bool :=
  s.docs.all (fun p => p.1 = pathToId p.2.path)

/-- The claim's `effectiveConfidence`: `parseConfidence` of the note's
`ai_suggestions.confidence`, exactly as `fileNote` computes it
(`none` = the access or the parse throws). -/
def noteEffConfidence (n : NoteRec) : Option ℚ :=
  match fmGet n.frontmatter "ai_suggestions" with
  | some sugg => parseConfidence (sugg.getProp "confidence")
  | none => none

theorem assocGet_mem {β : Type} {l : List (String × β)} {k : String} {v : β}
    (h : assocGet l k = some v) : (k, v) ∈ l := by
  induction l with
  | nil => cases h
  | cons p l ih =>
    rw [assocGet_cons] at h
    by_cases hp : p.1 = k
    · rw [if_pos hp] at h
      injection h with h
      rw [← hp, ← h]
      exact List.mem_cons_self p l
    · rw [if_neg hp] at h
      exact List.mem_cons_of_mem p (ih h)

/-- In a well-formed store a found document is also found under its own
path field. -/
theorem Store.find?_path_of_find? {s : Store} (hwf : s.wf = true) {p : String} {d : Doc}
    (h : s.find? p = some d) : s.find? d.path = some d := by
  have hmem : (pathToId p, d) ∈ s.docs := assocGet_mem h
  have hkey : pathToId p = pathToId d.path := by
    have := List.all_eq_true.mp hwf _ hmem
    simpa using this
  unfold Store.find? at h ⊢
  rw [← hkey]
  exact h

/-- Every enumerated processed note is present in the store. -/
theorem collectProcessed_mem {s : Store} (hwf : s.wf = true) :
    ∀ (ps : List String) (notes : List NoteRec), collectProcessed s ps = .ok notes →
    ∀ n ∈ notes, (s.find? n.path).isSome := by
  intro ps
  induction ps with
  | nil =>
    intro notes h n hn
    cases h
    cases hn
  | cons p ps ih =>
    intro notes h n hn
    unfold collectProcessed at h
    cases hrd : s.readNote p with
    | none =>
      rw [hrd] at h
      exact ih notes h n hn
    | some pc =>
      obtain ⟨path, content⟩ := pc
      rw [hrd] at h
      dsimp only at h
      cases hpf : parseFrontmatter content with
      | error e => rw [hpf] at h; cases h
      | ok fmb =>
        obtain ⟨fm, body⟩ := fmb
        rw [hpf] at h
        dsimp only at h
        by_cases htr : jsTruthy (fmGet fm "ai_suggestions") = true
        · rw [if_pos htr] at h
          cases hrest : collectProcessed s ps with
          | error e => rw [hrest] at h; cases h
          | ok rest =>
            rw [hrest] at h
            injection h with h
            rw [← h] at hn
            rcases List.mem_cons.mp hn with hn1 | hn1
            · subst hn1
              obtain ⟨d, hd⟩ : ∃ d, s.find? p = some d := by
                unfold Store.readNote at hrd
                cases hf : s.find? p with
                | none => rw [hf] at hrd; cases hrd
                | some d => exact ⟨d, rfl⟩
              have hdp : path = d.path := by
                unfold Store.readNote at hrd
                rw [hd] at hrd
                injection hrd with hrd
                exact congrArg Prod.fst hrd.symm
              dsimp only
              rw [hdp]
              rw [Store.find?_path_of_find? hwf hd]
              rfl
            · exact ih rest hrest n hn1
        · rw [if_neg htr] at h
          exact ih notes h n hn

/-- `fileNote` never removes a document id from the store. -/
theorem fileNote_preserves_doc {st st2 : SysState} {n : NoteRec} {mc : ℚ} {dry : Bool}
    {sid iso : String} {now : Nat} {res : Except VErr Detail}
    (h : fileNote st n mc dry sid iso now = (st2, res)) (q : String)
    (hq : (st.store.find? q).isSome) : (st2.store.find? q).isSome := by
  unfold fileNote queueForReview at h
  repeat' first
    | split at h
    | dsimp only at h
  all_goals injection h with h1 h2
  all_goals subst h1
  all_goals first
    | exact hq
    | exact Store.find?_isSome_writeNote _ _ hq
    | (exact Store.find?_isSome_deleteNote (by assumption)
        (Store.find?_isSome_writeNote _ _ hq))

/-- A note whose effective confidence is below the threshold is queued
(notably not filed) by `fileNote`. -/
theorem fileNote_low_conf_queued {st : SysState} {n : NoteRec} {mc v : ℚ} (dry : Bool)
    (sid iso : String) (now : Nat)
    (hconf : noteEffConfidence n = some v) (hlt : v < mc)
    (hpres : (st.store.find? n.path).isSome) :
    ∃ st2 d, fileNote st n mc dry sid iso now = (st2, .ok d) ∧ d.action = "queued" := by
  unfold noteEffConfidence at hconf
  cases hs : fmGet n.frontmatter "ai_suggestions" with
  | none => rw [hs] at hconf; cases hconf
  | some sugg =>
    rw [hs] at hconf
    dsimp only at hconf
    unfold fileNote
    rw [hs]
    dsimp only
    rw [hconf]
    dsimp only
    rw [if_pos hlt]
    unfold queueForReview
    by_cases hdry : dry = true
    · subst hdry
      rw [if_pos rfl]
      exact ⟨st, _, rfl, rfl⟩
    · rw [if_neg hdry]
      dsimp only
      have hp2 : ((st.store.writeNote ("inbox/review-queue/" ++ pathBasename n.path)
          (buildNote (setKey (setKey n.frontmatter "review_needed" (.b true)) "queued_at"
            (.s iso)) n.body)).find? n.path).isSome :=
        Store.find?_isSome_writeNote _ _ hpres
      obtain ⟨dd, hdd⟩ := Option.isSome_iff_exists.mp hp2
      rw [Store.deleteNote_of_some hdd]
      exact ⟨_, _, rfl, rfl⟩

/-- Lifting to the batch loop: position `i` of the details is a
`queued` record whenever note `i` has low effective confidence. -/
theorem runBatch_low_conf_queued (mc : ℚ) (dry : Bool) (sid iso : String) (now : Nat) :
    ∀ (notes : List NoteRec) (st : SysState) (i : Nat) (n : NoteRec) (v : ℚ),
    (∀ m ∈ notes, (st.store.find? m.path).isSome) →
    notes.get? i = some n →
    noteEffConfidence n = some v → v < mc →
    ∃ d, (runBatch mc dry sid iso now st notes).1.get? i = some d ∧ d.action = "queued" := by
  intro notes
  induction notes with
  | nil => intro st i n v _ h; cases h
  | cons m rest ih =>
    intro st i n v hpres h hconf hlt
    cases i with
    | zero =>
      rw [List.get?_cons_zero] at h
      injection h with h
      obtain ⟨st2, d, hf, hq⟩ := @fileNote_low_conf_queued st m mc v dry sid iso now
        (by rw [h]; exact hconf) (hlt) (hpres m (List.mem_cons_self m rest))
      unfold runBatch
      rw [hf]
      dsimp only
      rcases hr : runBatch mc dry sid iso now st2 rest with ⟨ds, st3⟩
      exact ⟨d, by simp, hq⟩
    | succ j =>
      rw [List.get?_cons_succ] at h
      unfold runBatch
      rcases hf : fileNote st m mc dry sid iso now with ⟨st1, res⟩
      dsimp only
      have hpres1 : ∀ m2 ∈ rest, (st1.store.find? m2.path).isSome := by
        intro m2 hm2
        exact fileNote_preserves_doc hf m2.path (hpres m2 (List.mem_cons_of_mem m hm2))
      obtain ⟨d, hd, hq⟩ := ih st1 j n v hpres1 h hconf hlt
      rcases hr : runBatch mc dry sid iso now st1 rest with ⟨ds, st2⟩
      rw [hr] at hd
      refine ⟨d, ?_, hq⟩
      simpa using hd

/-- C3: every note processed by `fileNotes` whose effective confidence
(`parseConfidence` of its suggestion's confidence) is strictly below
`minConfidence` is classified `queued` in the batch details — never
`filed`. -/
theorem fileNotes_low_confidence_queued (st : SysState) (opts : FileOptions)
    (inbox gen iso : String) (now : Nat) (notes : List NoteRec) (i : Nat) (n : NoteRec)
    (v : ℚ)
    (hwf : st.store.wf = true)
    (henum : getProcessedInboxNotes st.store inbox = .ok notes)
    (hi : (jsSlice notes (effLimit opts)).get? i = some n)
    (hconf : noteEffConfidence n = some v)
    (hlt : v < effMinConfidence opts) :
    ∃ r st2 d, fileNotes st opts inbox gen iso now = (.ok r, st2) ∧
      r.details.get? i = some d ∧ d.action = "queued" ∧ d.action ≠ "filed" := by
  have hne : notes.isEmpty = false := by
    cases hnn : notes with
    | nil =>
      subst hnn
      simp [jsSlice] at hi
    | cons a l => rfl
  have hpres : ∀ m ∈ jsSlice notes (effLimit opts), (st.store.find? m.path).isSome := by
    intro m hm
    refine collectProcessed_mem hwf _ notes henum m ?_
    exact List.mem_of_mem_take hm
  obtain ⟨d, hd, hq⟩ := runBatch_low_conf_queued (effMinConfidence opts) (effDryRun opts)
    (effSessionId opts gen) iso now (jsSlice notes (effLimit opts)) st i n v hpres hi hconf hlt
  unfold fileNotes fileNotesWith
  rw [henum]
  dsimp only
  rw [hne, if_neg (by simp)]
  rcases hr : runBatch (effMinConfidence opts) (effDryRun opts) (effSessionId opts gen)
      iso now st (jsSlice notes (effLimit opts)) with ⟨ds, st2⟩
  rw [hr] at hd
  refine ⟨_, st2, d, rfl, by simpa using hd, hq, by rw [hq]; decide⟩

/-- Store for the C3 witness: one processed inbox note whose suggested
confidence is `low` (0.3 < the default threshold 0.7). -/
def c3State : SysState :=
  ⟨⟨[("inbox/low.md",
      ⟨"inbox/low.md", "---\nai_suggestions:\n  confidence: low\n---\nB", false⟩)]⟩,
    ⟨[]⟩, ⟨[]⟩⟩

/-- The note as `getProcessedInboxNotes` enumerates it. -/
def c3Note : NoteRec :=
  ⟨"inbox/low.md", [("ai_suggestions", .obj [("confidence", .s "low")])], "B",
    "---\nai_suggestions:\n  confidence: low\n---\nB"⟩

theorem fileNotes_low_confidence_queued_witness :
    c3State.store.wf = true ∧
    noteEffConfidence c3Note = some (mkRat 3 10) ∧
    mkRat 3 10 < effMinConfidence {} ∧
    ∃ r st2 d, fileNotes c3State {} "inbox/" "g" "I" 1 = (.ok r, st2) ∧
      r.details.get? 0 = some d ∧ d.action = "queued" ∧ d.action ≠ "filed" :=
  ⟨by decide, by decide, by decide,
    fileNotes_low_confidence_queued c3State {} "inbox/" "g" "I" 1 [c3Note] 0 c3Note
      (mkRat 3 10) (by decide) rfl rfl (by decide) (by decide)⟩

/-! ### C1 — file-then-undo round trip -/

/-- Inversion of a successful non-dry filing: the target was free, the
filing wrote the updated note at the target and tombstoned the original,
and the session ledger gained a `file` operation carrying the original
content. -/
theorem fileNote_filed_inv {st st2 : SysState} {n : NoteRec} {mc : ℚ} {sid iso : String}
    {now : Nat} {tp : String} {tags : FmVal} {conf : Option FmVal}
    (h : fileNote st n mc false sid iso now = (st2, .ok (.filed n.path tp tags conf false))) :
    ∃ upd s₂,
      st.store.readNote tp = none ∧
      (st.store.writeNote tp upd).deleteNote n.path = .ok s₂ ∧
      st2 = ⟨s₂, trackOperation st.history sid ⟨"file", n.path, tp, now, n.content, upd⟩ now,
        st.learning⟩ := by
  unfold fileNote at h
  cases hsugg : fmGet n.frontmatter "ai_suggestions" with
  | none => rw [hsugg] at h; dsimp only at h; injection h with h1 h2; cases h2
  | some sugg =>
    rw [hsugg] at h
    dsimp only at h
    cases hconf : parseConfidence (sugg.getProp "confidence") with
    | none => rw [hconf] at h; dsimp only at h; injection h with h1 h2; cases h2
    | some cv =>
      rw [hconf] at h
      dsimp only at h
      by_cases hlt : cv < mc
      · rw [if_pos hlt] at h
        unfold queueForReview at h
        dsimp only at h
        rw [if_neg Bool.false_ne_true] at h
        split at h <;> (injection h with h1 h2; cases h2)
      · rw [if_neg hlt] at h
        cases hfol : jsOrVal (Option.map FmVal.s
            (getFolderHints st.learning n.body).suggestedFolder) (sugg.getProp "folder") with
        | none => rw [hfol] at h; dsimp only at h; injection h with h1 h2; cases h2
        | some fv =>
          rw [hfol] at h
          cases fv with
          | b x => dsimp only at h; injection h with h1 h2; cases h2
          | n x => dsimp only at h; injection h with h1 h2; cases h2
          | arr x => dsimp only at h; injection h with h1 h2; cases h2
          | obj x => dsimp only at h; injection h with h1 h2; cases h2
          | s folder =>
            dsimp only at h
            cases hrc : resolveCollision st.store (pathJoin folder (pathBasename n.path))
                false with
            | error e => rw [hrc] at h; dsimp only at h; injection h with h1 h2; cases h2
            | ok finalPath =>
              rw [hrc] at h
              dsimp only at h
              cases hbu : buildUpdatedNote n sugg iso with
              | error m => rw [hbu] at h; dsimp only at h; injection h with h1 h2; cases h2
              | ok upd =>
                rw [hbu] at h
                dsimp only at h
                rw [if_neg Bool.false_ne_true] at h
                cases hdel : (st.store.writeNote finalPath upd).deleteNote n.path with
                | error e => rw [hdel] at h; dsimp only at h; injection h with h1 h2; cases h2
                | ok s₂ =>
                  rw [hdel] at h
                  dsimp only at h
                  injection h with h1 h2
                  injection h2 with h2
                  injection h2 with e1 e2 e3 e4 e5
                  subst e2
                  exact ⟨upd, s₂, resolveCollision_ok_free hrc, hdel, h1.symm⟩

/-- Tracking an operation under a fresh session id with at most 99
sessions on record appends a new one-operation session (no pruning). -/
theorem trackOperation_fresh {h : History} {sid : String} (op : Operation) (now : Nat)
    (hfresh : h.sessions.any (fun q => q.1 = sid) = false)
    (hlen : h.sessions.length ≤ 99) :
    trackOperation h sid op now = ⟨h.sessions ++ [(sid, ⟨now, [op], false, none⟩)]⟩ := by
  unfold trackOperation
  rw [hfresh]
  simp only [Bool.false_eq_true, if_false]
  unfold pruneHistory
  rw [if_neg (by simp only [List.length_append, List.length_cons, List.length_nil]; omega)]

/-- Looking up a just-appended session. -/
theorem lookupSession_append_fresh {l : List (String × Session)} {sid : String}
    (hfresh : l.any (fun q => q.1 = sid) = false) (s : Session) :
    lookupSession ⟨l ++ [(sid, s)]⟩ sid = some s := by
  unfold lookupSession
  dsimp only
  rw [assocGet_append, assocGet_eq_none_of_not_any hfresh]
  dsimp only
  rw [assocGet_cons, if_pos rfl]

/-- Inbox note whose body holds a `✅` — content the write-time Unicode
sanitizer does not fix. -/
def c1BadState : SysState :=
  ⟨⟨[("inbox/e.md",
      ⟨"inbox/e.md", "---\nai_suggestions:\n  folder: notes\n  confidence: high\n---\n✅", false⟩)]⟩,
    ⟨[]⟩, ⟨[]⟩⟩

/-- C1, counterexample to "byte-for-byte": filing the `✅` note and then
undoing its session succeeds, but the undo rewrites the original content
through the sanitizing `writeNote`, so the restored note reads `[DONE]`
where the original had `✅` — not a byte-for-byte restore. -/
theorem undo_restore_not_byte_for_byte :
    (fileNotes c1BadState {} "inbox/" "s1" "I" 1).1.toOption.map
        (fun r => r.details.map Detail.action) = some ["filed"] ∧
    (undoLastFiling (fileNotes c1BadState {} "inbox/" "s1" "I" 1).2.store
        (fileNotes c1BadState {} "inbox/" "s1" "I" 1).2.history "s1" 2).1.toOption =
      some ⟨"s1", 1, 0, [⟨"file", "inbox/e.md", "undone", none⟩]⟩ ∧
    (undoLastFiling (fileNotes c1BadState {} "inbox/" "s1" "I" 1).2.store
        (fileNotes c1BadState {} "inbox/" "s1" "I" 1).2.history "s1" 2).2.1.readNote
        "inbox/e.md" =
      some ("inbox/e.md",
        "---\nai_suggestions:\n  folder: notes\n  confidence: high\n---\n[DONE]") ∧
    "---\nai_suggestions:\n  folder: notes\n  confidence: high\n---\n[DONE]" ≠
      "---\nai_suggestions:\n  folder: notes\n  confidence: high\n---\n✅" :=
  ⟨by decide, by decide, by decide, by decide⟩

/-- C1 (amended): undoing the session of a non-dry filed note restores
`sanitizeUnicode` of the original content at the original path —
byte-for-byte exactly when the sanitizer fixes the content (e.g. any
content previously written through the client) — soft-deletes the note
at the target path, and tolerates a 404 on the target delete. -/
theorem fileNote_undo_roundtrip (st : SysState) (n : NoteRec) (mc : ℚ)
    (sid iso : String) (now now2 : Nat) (st2 : SysState) (tp : String)
    (tags : FmVal) (conf : Option FmVal)
    (hpres : (st.store.find? n.path).isSome)
    (hfile : fileNote st n mc false sid iso now = (st2, .ok (.filed n.path tp tags conf false)))
    (hfresh : st.history.sessions.any (fun q => q.1 = sid) = false)
    (hlen : st.history.sessions.length ≤ 99) :
    ∃ store' h',
      undoLastFiling st2.store st2.history sid now2 =
        (.ok ⟨sid, 1, 0, [⟨"file", n.path, "undone", none⟩]⟩, store', h') ∧
      store'.readNote n.path = some (n.path, sanitizeUnicode n.content) ∧
      (sanitizeUnicode n.content = n.content →
        store'.readNote n.path = some (n.path, n.content)) ∧
      store'.find? tp = some ⟨tp, "", true⟩ ∧
      (∀ (s : Store) (op : Operation), op.action = "file" →
        (s.writeNote op.originalPath op.originalContent).find? op.targetPath = none →
        undoOperation s op = .ok (s.writeNote op.originalPath op.originalContent)) := by
  obtain ⟨upd, s₂, hfree, hdel, hst2⟩ := fileNote_filed_inv hfile
  have hfindF : st.store.find? tp = none := by
    rw [Store.readNote_def, Option.map_eq_none'] at hfree
    exact hfree
  have hidne : pathToId n.path ≠ pathToId tp := by
    intro he
    unfold Store.find? at hpres hfindF
    rw [he, hfindF] at hpres
    cases hpres
  obtain ⟨d₁, hd₁, hs₂tp⟩ := Store.find?_deleteNote hdel tp
  have hs2tp : s₂.find? tp = some ⟨tp, sanitizeUnicode upd, false⟩ := by
    rw [hs₂tp, if_neg (Ne.symm hidne), Store.find?_writeNote, if_pos rfl]
  have hf1 : (s₂.writeNote n.path n.content).find? tp =
      some ⟨tp, sanitizeUnicode upd, false⟩ := by
    rw [Store.find?_writeNote, if_neg (Ne.symm hidne)]
    exact hs2tp
  have hundo : undoOperation s₂ ⟨"file", n.path, tp, now, n.content, upd⟩ =
      .ok ⟨assocUpd (s₂.writeNote n.path n.content).docs (pathToId tp) ⟨tp, "", true⟩⟩ := by
    unfold undoOperation
    rw [if_pos (Or.inl rfl)]
    dsimp only
    rw [Store.deleteNote_of_some hf1]
  have hrestored : (⟨assocUpd (s₂.writeNote n.path n.content).docs (pathToId tp)
      ⟨tp, "", true⟩⟩ : Store).find? n.path =
      some ⟨n.path, sanitizeUnicode n.content, false⟩ := by
    unfold Store.find?
    dsimp only
    rw [assocGet_upd, if_neg hidne]
    have h2 := Store.find?_writeNote s₂ n.path n.content n.path
    rw [if_pos rfl] at h2
    exact h2
  rw [hst2]
  dsimp only
  refine ⟨⟨assocUpd (s₂.writeNote n.path n.content).docs (pathToId tp) ⟨tp, "", true⟩⟩,
    pruneHistory ⟨assocAdjust
      (st.history.sessions ++
        [(sid, ⟨now, [⟨"file", n.path, tp, now, n.content, upd⟩], false, none⟩)]) sid
      (fun s => { s with undone := true, undoneAt := some now2 })⟩, ?_, ?_, ?_, ?_, ?_⟩
  · rw [trackOperation_fresh _ now hfresh hlen]
    unfold undoLastFiling
    rw [lookupSession_append_fresh hfresh]
    dsimp only
    rw [List.reverse_singleton]
    dsimp only [List.foldl]
    rw [hundo]
    dsimp only
    rfl
  · rw [Store.readNote_def, hrestored]
    rfl
  · intro hsan
    rw [Store.readNote_def, hrestored, hsan]
    rfl
  · unfold Store.find?
    dsimp only
    rw [assocGet_upd, if_pos rfl]
  · intro s op hact hnone
    unfold undoOperation
    rw [if_pos (Or.inl hact)]
    dsimp only
    rw [Store.deleteNote_of_none hnone]

/-- All-ASCII round-trip fixture: stored inbox note with a high-confidence
folder suggestion. -/
def c1WState : SysState :=
  ⟨⟨[("inbox/a.md",
      ⟨"inbox/a.md", "---\nai_suggestions:\n  folder: notes\n  confidence: high\n---\nA", false⟩)]⟩,
    ⟨[]⟩, ⟨[]⟩⟩

/-- The note record the filer processes for the round-trip witness. -/
def c1WNote : NoteRec :=
  ⟨"inbox/a.md", [("ai_suggestions", .obj [("folder", .s "notes"), ("confidence", .s "high")])],
    "A", "---\nai_suggestions:\n  folder: notes\n  confidence: high\n---\nA"⟩

theorem fileNote_undo_roundtrip_witness :
    (c1WState.store.find? c1WNote.path).isSome = true ∧
    fileNote c1WState c1WNote (mkRat 7 10) false "s9" "I" 1 =
      ((fileNote c1WState c1WNote (mkRat 7 10) false "s9" "I" 1).1,
        .ok (.filed c1WNote.path "notes/a.md" (FmVal.arr []) (some (.s "high")) false)) ∧
    (∃ store' h',
      undoLastFiling (fileNote c1WState c1WNote (mkRat 7 10) false "s9" "I" 1).1.store
          (fileNote c1WState c1WNote (mkRat 7 10) false "s9" "I" 1).1.history "s9" 2 =
        (.ok ⟨"s9", 1, 0, [⟨"file", c1WNote.path, "undone", none⟩]⟩, store', h') ∧
      store'.readNote c1WNote.path = some (c1WNote.path, sanitizeUnicode c1WNote.content) ∧
      (sanitizeUnicode c1WNote.content = c1WNote.content →
        store'.readNote c1WNote.path = some (c1WNote.path, c1WNote.content)) ∧
      store'.find? "notes/a.md" = some ⟨"notes/a.md", "", true⟩ ∧
      (∀ (s : Store) (op : Operation), op.action = "file" →
        (s.writeNote op.originalPath op.originalContent).find? op.targetPath = none →
        undoOperation s op = .ok (s.writeNote op.originalPath op.originalContent))) :=
  ⟨by decide, rfl,
    fileNote_undo_roundtrip c1WState c1WNote (mkRat 7 10) "s9" "I" 1 2
      (fileNote c1WState c1WNote (mkRat 7 10) false "s9" "I" 1).1 "notes/a.md"
      (FmVal.arr []) (some (.s "high")) (by decide) rfl (by decide) (by decide)⟩

end VaultCurator
